import Mathlib

/-!
Verification of the pyprometheus metric recorder and collector.

This file gives a shallow embedding of `prometheus/metrics.py` and
`prometheus/exporter.py`.  Python dictionaries of labels are embedded as
association lists with unique keys (insertion order preserved), the Redis
hash that backs one per-process metric key is embedded as a function from
canonical label keys to optional numbers, and numeric sample values are
embedded as rationals.  Python exceptions are embedded as `Except` values;
the error names follow the specification's error vocabulary
(`ValueError` on a negative amount or a bad name is `invalidArgument`,
`ValueError` from label validation is `invalidLabel`, the `TypeError`
raised by `Counter.dec` is `unsupportedOperation`, `KeyError` is
`notFound` / `keyError`).
-/

namespace PyProm

/-- A label value: the Python code stores either strings or numbers
(histogram bucket thresholds are numbers, the sentinels `"+Inf"` and
`"_sum"` are strings). -/
inductive LabVal where
  | str : String → LabVal
  | num : ℚ → LabVal
deriving DecidableEq, Repr

/-- A Python label dictionary: an association list in insertion order.
A list that models a real `dict` has no duplicate keys. -/
abbrev Labels := List (String × LabVal)

/-- The key list of a label dictionary. -/
def keysOf (l : Labels) : List String := l.map Prod.fst

/-- Dictionary lookup: the first entry with the given key. -/
def alookup (k : String) : Labels → Option LabVal
  | [] => none
  | kv :: rest => if kv.1 = k then some kv.2 else alookup k rest

/-- Python `d[k] = v` / a single `update` entry: replace the entry in
place when the key is present, append it otherwise. -/
def upsert (l : Labels) (k : String) (v : LabVal) : Labels :=
  if k ∈ keysOf l then l.map (fun p => if p.1 = k then (k, v) else p)
  else l ++ [(k, v)]

/-- Python `labels.update(**base)` (`metrics.py` line 145): fold every
entry of `base` into `labels`, the entry from `base` winning on a key
collision. -/
def labelsUpdate (l base : Labels) : Labels :=
  base.foldl (fun acc kv => upsert acc kv.1 kv.2) l

/-- Python `labels.pop('le', None)` (`metrics.py` line 237): remove the
first entry with the given key, if any. -/
def popKey (k : String) : Labels → Labels
  | [] => []
  | kv :: rest => if kv.1 = k then rest else kv :: popKey k rest

/-- Lexicographic (byte-wise) comparison of character lists, the order
Python uses on strings. -/
def chListLe : List Char → List Char → Bool
  | [], _ => true
  | _ :: _, [] => false
  | a :: as, b :: bs => if a < b then true else if b < a then false else chListLe as bs

/-- Comparison of label entries by key, used for `sort_keys=True`. -/
def entryLe (a b : String × LabVal) : Bool := chListLe a.1.data b.1.data

/-- Stable insertion of one element into a sorted list: the embedding
of Python's stable comparison sort (any stable sort over the same total
comparison yields the same list). -/
def insertBy (le : α → α → Bool) (x : α) : List α → List α
  | [] => [x]
  | y :: ys => if le x y then x :: y :: ys else y :: insertBy le x ys

/-- Stable sort by a total Boolean comparison. -/
def insortBy (le : α → α → Bool) : List α → List α
  | [] => []
  | x :: xs => insertBy le x (insortBy le xs)

/-- Embedding of `json.dumps(..., sort_keys=True)`: it sorts the dictionary entries by
key before serializing (`metrics.py` line 147). -/
def sortByKey (l : Labels) : Labels := insortBy entryLe l

/-- The canonical (sorted) form of a label dictionary; this is the
structured content of the canonical label string and is used as the
storage sub-key of the Redis hash. -/
def canonList (l : Labels) : Labels := sortByKey l

/-- Model of `json.dumps` string escaping (backslash and double quote). -/
def escapeChar (c : Char) : String :=
  if c = '\\' then "\\\\" else if c = '"' then "\\\"" else String.singleton c

/-- Escape a whole string. -/
def escapeStr (s : String) : String := String.join (s.data.map escapeChar)

/-- Serialization of one label value.  The numeric textual form
abstracts Python's float formatting; it is a fixed deterministic
function of the value, which is all the canonicality claims use. -/
def serLabVal : LabVal → String
  | .str s => "\"" ++ escapeStr s ++ "\""
  | .num q => toString q

/-- JSON-style serialization of a label dictionary in entry order. -/
def serializeLabels (l : Labels) : String :=
  "\x7b" ++ String.intercalate ", "
    (l.map (fun kv => "\"" ++ escapeStr kv.1 ++ "\": " ++ serLabVal kv.2)) ++ "\x7d"

/-- Helper for the `RESTRICTED_LABELS_NAMES` / `RESTRICTED_LABELS_PREFIXES` check for a
single label name (`metrics.py` lines 159-166): the name must not be
`job` and must not start with `__`. -/
def listStartsWith : List Char → List Char → Bool
  | [], _ => true
  | _ :: _, [] => false
  | p :: ps, c :: cs => p = c && listStartsWith ps cs

/-- A single label name passes `_label_names_correct`. -/
def labelNameOk (k : String) : Bool :=
  !(k = "job") && !(listStartsWith "__".data k.data)

/-- Embedding of `Metric._label_names_correct` (`metrics.py` lines 149-168) as a
predicate: every label name is acceptable. -/
def label_names_correct (l : Labels) : Bool := l.all (fun kv => labelNameOk kv.1)

/-- Embedding of `Metric._labels` (`metrics.py` lines 138-147): merge the base labels
into the caller's dictionary in place, then serialize the sorted result.
Returns the mutated dictionary together with the canonical string. -/
def Metric.labelsFn (base l : Labels) : Labels × String :=
  let l2 := labelsUpdate l base
  (l2, serializeLabels (sortByKey l2))

/-- Errors, named after the specification's error vocabulary. -/
inductive Err where
  | invalidArgument
  | invalidLabel
  | unsupportedOperation
  | notFound
  | unsupportedMetricType
  | keyError
deriving DecidableEq, Repr

/-- The Redis hash backing one per-process metric key: canonical label
keys to stored numeric values. -/
abbrev Store := Labels → Option ℚ

/-- Redis `hincrbyfloat`: add to the field, initializing an absent field to 0. -/
def hincr (st : Store) (k : Labels) (x : ℚ) : Store :=
  fun k2 => if k2 = k then some ((st k).getD 0 + x) else st k2

/-- Redis `hset`: overwrite the field. -/
def hset (st : Store) (k : Labels) (x : ℚ) : Store :=
  fun k2 => if k2 = k then some x else st k2

/-- Embedding of `" " in name`: the metric name contains a space character. -/
def containsSpace (s : String) : Bool := s.data.any (fun c => c = ' ')

/-- The metric types accepted by `Metric.__init__`
(`metrics.py` line 33). -/
def metric_types : List String := ["untyped", "gauge", "counter", "summary", "histogram"]

/-- Boolean membership in a list of strings. -/
def strIn (s : String) (l : List String) : Bool := l.any (fun x => x = s)

/-- The validation part of `Metric.__init__` (`metrics.py` lines 31-34):
reject a name containing a space, then reject a metric type outside the
five recognized ones. -/
def metricInitCheck (name metric_type : String) : Except Err Unit :=
  if containsSpace name then .error .invalidArgument
  else if !(strIn metric_type metric_types) then .error .invalidArgument
  else .ok ()

/-- Embedding of `Metric.set_value` (`metrics.py` lines 77-91): validate the caller's
labels when non-empty, merge in the base labels (mutating the argument),
validate again, then `hset` the canonical key. -/
def Metric.set_value (base : Labels) (st : Store) (l : Labels) (v : ℚ) :
    Except Err (Store × Labels) :=
  if !l.isEmpty && !label_names_correct l then .error .invalidLabel
  else
    let l2 := labelsUpdate l base
    if !label_names_correct l2 then .error .invalidLabel
    else .ok (hset st (canonList l2) v, l2)

/-- Embedding of `Metric.inc` (`metrics.py` lines 93-108): reject a negative amount,
merge in the base labels (mutating the argument), validate, then
`hincrbyfloat` the canonical key. -/
def Metric.inc (base : Labels) (st : Store) (l : Labels) (amount : ℚ) :
    Except Err (Store × Labels) :=
  if amount < 0 then .error .invalidArgument
  else
    let l2 := labelsUpdate l base
    if !label_names_correct l2 then .error .invalidLabel
    else .ok (hincr st (canonList l2) amount, l2)

/-- Embedding of `Metric.dec` (`metrics.py` lines 110-122), the gauge path: reject a
negative amount, then add the negated amount. -/
def Metric.dec (base : Labels) (st : Store) (l : Labels) (amount : ℚ) :
    Except Err (Store × Labels) :=
  if amount < 0 then .error .invalidArgument
  else
    let l2 := labelsUpdate l base
    if !label_names_correct l2 then .error .invalidLabel
    else .ok (hincr st (canonList l2) (-amount), l2)

/-- Embedding of `Counter.dec` (`metrics.py` lines 180-188): unconditionally
`raise TypeError("counters can not be decremented")`.  No store
operation is ever issued. -/
def Counter.dec (base : Labels) (st : Store) (l : Labels) (amount : ℚ) :
    Except Err (Store × Labels) :=
  .error .unsupportedOperation

/-- Embedding of `Metric.get_value` (`metrics.py` lines 124-136): `hexists` on the
canonical key (computing `_labels` once, which mutates the argument),
raise `KeyError` when absent, otherwise `hget` (computing `_labels` a
second time). -/
def Metric.get_value (base : Labels) (st : Store) (l : Labels) :
    Except Err (ℚ × Labels) :=
  let l2 := labelsUpdate l base
  if !label_names_correct l2 then .error .invalidLabel
  else if (st (canonList l2)).isNone then .error .notFound
  else
    let l3 := labelsUpdate l2 base
    if !label_names_correct l3 then .error .invalidLabel
    else
      match st (canonList l3) with
      | some q => .ok (q, l3)
      | none => .error .notFound

/-- The bucket loop of `Histogram.observe` (`metrics.py` lines 229-232):
for each configured bucket, when `value < bucket`, set `labels['le']`
to the bucket threshold (mutating the same dictionary) and increment. -/
def Histogram.observeLoop (base : Labels) (v : ℚ) :
    List ℚ → Store → Labels → Except Err (Store × Labels)
  | [], st, l => .ok (st, l)
  | b :: bs, st, l =>
    if v < b then
      match Metric.inc base st (upsert l "le" (LabVal.num b)) 1 with
      | .error e => .error e
      | .ok (st2, l2) => Histogram.observeLoop base v bs st2 l2
    else Histogram.observeLoop base v bs st l

/-- Embedding of `Histogram.observe` (`metrics.py` lines 218-237): the bucket loop,
then the `le="+Inf"` count, then the `le="_sum"` running sum, then
`labels.pop('le', None)`. -/
def Histogram.observe (base : Labels) (buckets : List ℚ) (st : Store)
    (l : Labels) (v : ℚ) : Except Err (Store × Labels) :=
  match Histogram.observeLoop base v buckets st l with
  | .error e => .error e
  | .ok (st1, l1) =>
    match Metric.inc base st1 (upsert l1 "le" (LabVal.str "+Inf")) 1 with
    | .error e => .error e
    | .ok (st2, l2) =>
      match Metric.inc base st2 (upsert l2 "le" (LabVal.str "_sum")) v with
      | .error e => .error e
      | .ok (st3, l3) => .ok (st3, popKey "le" l3)

/-- The default histogram buckets (`metrics.py` line 41). -/
def defaultBuckets : List ℚ := [1/10, 1/4, 1/2, 3/4, 1, 3/2, 2]

/-- One merged (or raw) sample table: canonical label keys with their
numeric values, in dictionary insertion order.  This embeds
`metric_dict['values']`; the canonical JSON string keys are represented
by their structured canonical label lists, on which the serialization
is injective. -/
abbrev Values := List (Labels × ℚ)

/-- Lookup in a sample table. -/
def vlookup (k : Labels) : Values → Option ℚ
  | [] => none
  | kv :: rest => if kv.1 = k then some kv.2 else vlookup k rest

/-- The key list of a sample table. -/
def vkeys (vs : Values) : List Labels := vs.map Prod.fst

/-- Replace the value stored under a key, keeping its position. -/
def vreplace (vs : Values) (k : Labels) (q : ℚ) : Values :=
  vs.map (fun kv => if kv.1 = k then (k, q) else kv)

/-- One iteration of the merge loop in `RedisExporter.get_metric`
(`exporter.py` lines 80-93): when the canonical key already exists,
counters and histograms add the new value to the existing one, gauges
take the new value, any other type leaves the existing entry untouched;
a new canonical key is inserted with the new value. -/
def RedisExporter.mergeStep (metric_type : String) (ex : Values) (kv : Labels × ℚ) : Values :=
  match vlookup kv.1 ex with
  | some oldv =>
    if metric_type = "counter" || metric_type = "histogram" then
      vreplace ex kv.1 (kv.2 + oldv)
    else if metric_type = "gauge" then vreplace ex kv.1 kv.2
    else ex
  | none => ex ++ [kv]

/-- The whole merge loop of `RedisExporter.get_metric` over one new
fragment. -/
def RedisExporter.mergeInto (metric_type : String) (ex newVals : Values) : Values :=
  newVals.foldl (RedisExporter.mergeStep metric_type) ex

/-- The fold of `RedisExporter.get_all_metrics` (`exporter.py` lines
112-119) restricted to its merging effect: the first discovered
fragment is taken as-is, every later fragment is merged in. -/
def RedisExporter.mergeAll (metric_type : String) : List Values → Values
  | [] => []
  | f :: fs => fs.foldl (RedisExporter.mergeInto metric_type) f

/-- Python 2 `sorted` comparison on decoded `le` values: two numbers
compare numerically, two strings byte-lexicographically, and a number
compares below any string (Python 2 orders mismatched types by type
name, and `float`/`int` precede `str`). -/
def py2le : LabVal → LabVal → Bool
  | .num a, .num b => decide (a ≤ b)
  | .num _, .str _ => true
  | .str _, .num _ => false
  | .str a, .str b => chListLe a.data b.data

/-- The `le` field of a decoded canonical key (`k['le']`), defaulting
for totality; `sortHist` only sorts tables whose keys all carry `le`. -/
def leV (k : Labels) : LabVal := (alookup "le" k).getD (LabVal.str "")

/-- Rebuild the ordered sample table in sorted key order
(`exporter.py` lines 100-104): `vals[kn]` raises `KeyError` when the
re-encoded key is absent. -/
def RedisExporter.lookupAll (vs : Values) : List Labels → Except Err Values
  | [] => .ok []
  | k :: ks =>
    match vlookup k vs with
    | none => .error .keyError
    | some q =>
      match RedisExporter.lookupAll vs ks with
      | .error e => .error e
      | .ok rest => .ok ((k, q) :: rest)

/-- The histogram branch of `RedisExporter.get_metric` (`exporter.py`
lines 96-104): decode every canonical key, sort by the `le` field
(`k['le']` raises `KeyError` when a key has no `le`), then rebuild the
table in sorted order. -/
def RedisExporter.sortHist (vs : Values) : Except Err Values :=
  if vs.all (fun kv => (alookup "le" kv.1).isSome) then
    RedisExporter.lookupAll vs (insortBy (fun a b => py2le (leV a) (leV b)) (vkeys vs))
  else .error .keyError

/-- Embedding of `RedisExporter.get_metric` (`exporter.py` lines 64-109) on one
fragment's value table: take the raw table when there is no existing
merged metric, merge otherwise, and re-sort histograms by bucket. -/
def RedisExporter.get_metric (metric_type : String) (vals : Values)
    (existing : Option Values) : Except Err Values :=
  let merged := match existing with
    | none => vals
    | some ex => RedisExporter.mergeInto metric_type ex vals
  if metric_type = "histogram" then RedisExporter.sortHist merged else .ok merged

/-- The tail of the `get_all_metrics` fold once a first fragment has
produced an entry for the metric name. -/
def RedisExporter.getAllAux (metric_type : String) (acc : Values) :
    List Values → Except Err Values
  | [] => .ok acc
  | f :: fs =>
    match RedisExporter.get_metric metric_type f (some acc) with
    | .error e => .error e
    | .ok m => RedisExporter.getAllAux metric_type m fs

/-- Embedding of `RedisExporter.get_all_metrics` (`exporter.py` lines 112-119)
restricted to the fragments of one metric name: fold `get_metric` over
the discovered fragments in visitation order. -/
def RedisExporter.get_all_metrics (metric_type : String) :
    List Values → Except Err Values
  | [] => .ok []
  | f :: fs =>
    match RedisExporter.get_metric metric_type f none with
    | .error e => .error e
    | .ok m => RedisExporter.getAllAux metric_type m fs

/-! ## Label dictionary lemmas -/

theorem keysOf_cons (kv : String × LabVal) (l : Labels) :
    keysOf (kv :: l) = kv.1 :: keysOf l := rfl

theorem keysOf_append (l₁ l₂ : Labels) :
    keysOf (l₁ ++ l₂) = keysOf l₁ ++ keysOf l₂ := List.map_append _ _ _

theorem alookup_eq_none_iff (k : String) (l : Labels) :
    alookup k l = none ↔ k ∉ keysOf l := by
  induction l with
  | nil => simp [alookup, keysOf]
  | cons kv rest ih =>
    simp only [alookup, keysOf_cons, List.mem_cons]
    by_cases h : kv.1 = k
    · simp [h]
    · simp only [if_neg h, ih]
      constructor
      · rintro hnot (he | hm)
        · exact h he.symm
        · exact hnot hm
      · exact fun hnot hm => hnot (Or.inr hm)

theorem mem_of_alookup_eq_some {k : String} {v : LabVal} {l : Labels}
    (h : alookup k l = some v) : (k, v) ∈ l := by
  induction l with
  | nil => simp [alookup] at h
  | cons kv rest ih =>
    by_cases hk : kv.1 = k
    · simp only [alookup, hk, if_pos] at h
      have : kv = (k, v) := by
        cases kv; simp_all
      simp [this]
    · simp only [alookup, hk, if_neg, not_false_iff] at h
      exact List.mem_cons_of_mem _ (ih h)

theorem alookup_eq_some_of_mem {k : String} {v : LabVal} {l : Labels}
    (hn : (keysOf l).Nodup) (h : (k, v) ∈ l) : alookup k l = some v := by
  induction l with
  | nil => simp at h
  | cons kv rest ih =>
    rcases List.mem_cons.1 h with heq | hmem
    · simp [alookup, ← heq]
    · have hk : kv.1 ≠ k := by
        intro hk
        have : k ∈ keysOf rest := List.mem_map_of_mem Prod.fst hmem
        rw [keysOf_cons] at hn
        exact (List.nodup_cons.1 hn).1 (hk ▸ this)
      have hn' : (keysOf rest).Nodup := (List.nodup_cons.1 (keysOf_cons _ _ ▸ hn)).2
      simp [alookup, hk, ih hn' hmem]

theorem alookup_of_perm {l₁ l₂ : Labels} (hp : l₁.Perm l₂)
    (hn : (keysOf l₁).Nodup) (k : String) : alookup k l₁ = alookup k l₂ := by
  have hn₂ : (keysOf l₂).Nodup := (hp.map Prod.fst).nodup_iff.1 hn
  cases h : alookup k l₁ with
  | none =>
    have : k ∉ keysOf l₂ := by
      intro hk
      have : k ∈ keysOf l₁ := ((hp.map Prod.fst).mem_iff).2 hk
      exact ((alookup_eq_none_iff k l₁).1 h) this
    exact ((alookup_eq_none_iff k l₂).2 this).symm
  | some v =>
    exact (alookup_eq_some_of_mem hn₂ (hp.mem_iff.1 (mem_of_alookup_eq_some h))).symm

theorem alookup_append (k : String) (l₁ l₂ : Labels) :
    alookup k (l₁ ++ l₂) = (alookup k l₁).or (alookup k l₂) := by
  induction l₁ with
  | nil => simp [alookup]
  | cons kv rest ih =>
    by_cases h : kv.1 = k <;> simp [alookup, h, ih]

theorem keysOf_map_replace (l : Labels) (k : String) (v : LabVal) :
    keysOf (l.map (fun p => if p.1 = k then (k, v) else p)) = keysOf l := by
  induction l with
  | nil => rfl
  | cons kv rest ih =>
    by_cases h : kv.1 = k
    · simp only [List.map_cons, if_pos h, keysOf_cons, ih]
      rw [h]
    · simp only [List.map_cons, if_neg h, keysOf_cons, ih]

theorem alookup_map_replace (l : Labels) (k k2 : String) (v : LabVal) :
    alookup k2 (l.map (fun p => if p.1 = k then (k, v) else p)) =
      if k = k2 then (alookup k l).map (fun _ => v) else alookup k2 l := by
  induction l with
  | nil => simp [alookup]
  | cons kv rest ih =>
    simp only [List.map_cons]
    by_cases hk : kv.1 = k
    · rw [if_pos hk]
      by_cases hk2 : k = k2
      · subst hk2
        simp [alookup, hk, ih]
      · have hkv2 : ¬ kv.1 = k2 := by rw [hk]; exact hk2
        simp [alookup, hk, hk2, hkv2, ih]
    · rw [if_neg hk]
      by_cases hk2 : kv.1 = k2
      · have hne : ¬ k = k2 := fun he => hk (by rw [he, hk2])
        simp [alookup, hk2, hne]
      · simp [alookup, hk, hk2, ih]

theorem alookup_upsert (l : Labels) (k k2 : String) (v : LabVal) :
    alookup k2 (upsert l k v) = if k = k2 then some v else alookup k2 l := by
  unfold upsert
  by_cases hmem : k ∈ keysOf l
  · rw [if_pos hmem, alookup_map_replace]
    by_cases hk2 : k = k2
    · subst hk2
      rcases Option.ne_none_iff_exists'.1
        (fun h => ((alookup_eq_none_iff k l).1 h) hmem) with ⟨w, hw⟩
      simp [hw]
    · simp [hk2]
  · rw [if_neg hmem, alookup_append]
    by_cases hk2 : k = k2
    · have : alookup k2 l = none := (alookup_eq_none_iff k2 l).2 (hk2 ▸ hmem)
      simp [this, alookup, hk2]
    · have : ¬ k = k2 := hk2
      simp [alookup, this]

theorem keysOf_upsert (l : Labels) (k : String) (v : LabVal) :
    keysOf (upsert l k v) = if k ∈ keysOf l then keysOf l else keysOf l ++ [k] := by
  unfold upsert
  by_cases hmem : k ∈ keysOf l
  · rw [if_pos hmem, if_pos hmem, keysOf_map_replace]
  · rw [if_neg hmem, if_neg hmem, keysOf_append]
    rfl

theorem nodup_keysOf_upsert {l : Labels} (k : String) (v : LabVal)
    (hn : (keysOf l).Nodup) : (keysOf (upsert l k v)).Nodup := by
  rw [keysOf_upsert]
  by_cases hmem : k ∈ keysOf l
  · rw [if_pos hmem]; exact hn
  · rw [if_neg hmem, List.nodup_append]
    refine ⟨hn, List.nodup_singleton k, ?_⟩
    intro a ha hb
    rw [List.mem_singleton] at hb
    exact hmem (hb ▸ ha)

theorem labelsUpdate_cons (l : Labels) (kv : String × LabVal) (base : Labels) :
    labelsUpdate l (kv :: base) = labelsUpdate (upsert l kv.1 kv.2) base := rfl

theorem nodup_keysOf_labelsUpdate {l : Labels} (base : Labels)
    (hn : (keysOf l).Nodup) : (keysOf (labelsUpdate l base)).Nodup := by
  induction base generalizing l with
  | nil => exact hn
  | cons kv bs ih => exact ih (nodup_keysOf_upsert kv.1 kv.2 hn)

theorem alookup_labelsUpdate {base : Labels} (hb : (keysOf base).Nodup)
    (l : Labels) (k : String) :
    alookup k (labelsUpdate l base) = (alookup k base).or (alookup k l) := by
  induction base generalizing l with
  | nil => simp [labelsUpdate, alookup]
  | cons kv bs ih =>
    rw [labelsUpdate_cons]
    have hbs : (keysOf bs).Nodup := (List.nodup_cons.1 (keysOf_cons _ _ ▸ hb)).2
    rw [ih hbs]
    by_cases hk : kv.1 = k
    · have : alookup k bs = none := by
        rw [alookup_eq_none_iff]
        exact fun hmem => (List.nodup_cons.1 (keysOf_cons _ _ ▸ hb)).1 (hk ▸ hmem)
      simp [alookup, hk, this, alookup_upsert]
    · simp [alookup, hk, alookup_upsert]

theorem label_names_correct_iff (l : Labels) :
    label_names_correct l = true ↔ ∀ kv ∈ l, labelNameOk kv.1 = true := by
  simp [label_names_correct, List.all_eq_true]

theorem label_names_correct_upsert {l : Labels} {k : String} (v : LabVal)
    (hl : label_names_correct l = true) (hk : labelNameOk k = true) :
    label_names_correct (upsert l k v) = true := by
  rw [label_names_correct_iff] at hl ⊢
  intro kv hkv
  unfold upsert at hkv
  by_cases hmem : k ∈ keysOf l
  · rw [if_pos hmem] at hkv
    rcases List.mem_map.1 hkv with ⟨p, hp, hpe⟩
    by_cases hpk : p.1 = k
    · simp only [hpk, if_pos] at hpe
      rw [← hpe]
      exact hk
    · simp only [hpk, if_neg, not_false_iff] at hpe
      rw [← hpe]
      exact hl p hp
  · rw [if_neg hmem] at hkv
    rcases List.mem_append.1 hkv with hmem2 | hmem2
    · exact hl kv hmem2
    · simp at hmem2
      rw [hmem2]
      exact hk

theorem label_names_correct_labelsUpdate {l base : Labels}
    (hl : label_names_correct l = true) (hb : label_names_correct base = true) :
    label_names_correct (labelsUpdate l base) = true := by
  induction base generalizing l with
  | nil => exact hl
  | cons kv bs ih =>
    rw [labelsUpdate_cons]
    have hkv : labelNameOk kv.1 = true := (label_names_correct_iff _).1 hb kv (by simp)
    have hbs : label_names_correct bs = true := by
      rw [label_names_correct_iff] at hb ⊢
      exact fun p hp => hb p (List.mem_cons_of_mem _ hp)
    exact ih (label_names_correct_upsert kv.2 hl hkv) hbs

theorem popKey_sublist (k : String) (l : Labels) : (popKey k l).Sublist l := by
  induction l with
  | nil => simp [popKey]
  | cons kv rest ih =>
    by_cases h : kv.1 = k
    · simp [popKey, h]
    · simpa [popKey, h] using ih.cons₂ kv

theorem alookup_popKey_ne {k k2 : String} (h : k2 ≠ k) (l : Labels) :
    alookup k2 (popKey k l) = alookup k2 l := by
  induction l with
  | nil => rfl
  | cons kv rest ih =>
    by_cases hk : kv.1 = k
    · have h2 : ¬ kv.1 = k2 := by rw [hk]; exact fun he => h he.symm
      have h3 : ¬ k = k2 := fun he => h he.symm
      simp [popKey, hk, alookup, h2, h3]
    · by_cases hk2 : kv.1 = k2 <;> simp [popKey, hk, alookup, hk2, ih, h]

theorem alookup_popKey_self {l : Labels} (k : String)
    (hn : (keysOf l).Nodup) : alookup k (popKey k l) = none := by
  induction l with
  | nil => rfl
  | cons kv rest ih =>
    have hn' : (keysOf rest).Nodup := (List.nodup_cons.1 (keysOf_cons _ _ ▸ hn)).2
    by_cases hk : kv.1 = k
    · rw [popKey, if_pos hk, alookup_eq_none_iff]
      exact fun hmem => (List.nodup_cons.1 (keysOf_cons _ _ ▸ hn)).1 (hk ▸ hmem)
    · simp [popKey, hk, alookup, ih hn']

/-! ## Permutations and the canonical sorted form -/

theorem perm_cons_popKey {k : String} {v : LabVal} {l : Labels}
    (h : alookup k l = some v) : l.Perm ((k, v) :: popKey k l) := by
  induction l with
  | nil => simp [alookup] at h
  | cons kv rest ih =>
    by_cases hk : kv.1 = k
    · simp only [alookup, hk, if_pos] at h
      have : kv = (k, v) := by cases kv; simp_all
      rw [popKey, if_pos hk, this]
    · simp only [alookup, hk, if_neg, not_false_iff] at h
      rw [popKey, if_neg hk]
      exact ((ih h).cons kv).trans (List.Perm.swap _ _ _)

theorem perm_of_alookup_eq {l₁ l₂ : Labels}
    (hn₁ : (keysOf l₁).Nodup) (hn₂ : (keysOf l₂).Nodup)
    (h : ∀ k, alookup k l₁ = alookup k l₂) : l₁.Perm l₂ := by
  induction l₁ generalizing l₂ with
  | nil =>
    cases l₂ with
    | nil => exact List.Perm.refl _
    | cons kv rest =>
      have := h kv.1
      simp [alookup] at this
  | cons kv l₁' ih =>
    have hhead : alookup kv.1 (kv :: l₁') = some kv.2 := by simp [alookup]
    have h₂ : alookup kv.1 l₂ = some kv.2 := by rw [← h kv.1]; exact hhead
    have hpop : l₂.Perm ((kv.1, kv.2) :: popKey kv.1 l₂) := perm_cons_popKey h₂
    have hn₁' : (keysOf l₁').Nodup := (List.nodup_cons.1 (keysOf_cons _ _ ▸ hn₁)).2
    have hknotin : kv.1 ∉ keysOf l₁' := (List.nodup_cons.1 (keysOf_cons _ _ ▸ hn₁)).1
    have hnpop : (keysOf (popKey kv.1 l₂)).Nodup :=
      hn₂.sublist ((popKey_sublist kv.1 l₂).map Prod.fst)
    have hlook : ∀ k, alookup k l₁' = alookup k (popKey kv.1 l₂) := by
      intro k
      by_cases hk : k = kv.1
      · rw [hk, alookup_popKey_self kv.1 hn₂, alookup_eq_none_iff]
        exact hknotin
      · rw [alookup_popKey_ne hk]
        have hne : ¬ kv.1 = k := fun he => hk he.symm
        have : alookup k (kv :: l₁') = alookup k l₁' := by
          simp [alookup, hne]
        rw [← this, h k]
    have := (ih hn₁' hnpop hlook).cons kv
    exact this.trans hpop.symm

theorem chListLe_trans : ∀ a b c : List Char,
    chListLe a b = true → chListLe b c = true → chListLe a c = true := by
  intro a
  induction a with
  | nil => intro b c _ _; rfl
  | cons x xs ih =>
    intro b c hab hbc
    cases b with
    | nil => simp [chListLe] at hab
    | cons y ys =>
      cases c with
      | nil => simp [chListLe] at hbc
      | cons z zs =>
        rw [chListLe] at hab hbc ⊢
        by_cases hxy : x < y
        · by_cases hyz : y < z
          · rw [if_pos (lt_trans hxy hyz)]
          · rw [if_neg hyz] at hbc
            by_cases hzy : z < y
            · rw [if_pos hzy] at hbc
              simp at hbc
            · have hyzeq : y = z := le_antisymm (not_lt.1 hzy) (not_lt.1 hyz)
              rw [if_pos (hyzeq ▸ hxy)]
        · rw [if_neg hxy] at hab
          by_cases hyx : y < x
          · rw [if_pos hyx] at hab
            simp at hab
          · rw [if_neg hyx] at hab
            have hxyeq : x = y := le_antisymm (not_lt.1 hyx) (not_lt.1 hxy)
            subst hxyeq
            by_cases hxz : x < z
            · rw [if_pos hxz]
            · rw [if_neg hxz] at hbc ⊢
              by_cases hzx : z < x
              · rw [if_pos hzx] at hbc
                simp at hbc
              · rw [if_neg hzx] at hbc ⊢
                exact ih ys zs hab hbc


theorem chListLe_total : ∀ a b : List Char,
    chListLe a b = true ∨ chListLe b a = true := by
  intro a
  induction a with
  | nil => intro b; left; rfl
  | cons x xs ih =>
    intro b
    cases b with
    | nil => right; rfl
    | cons y ys =>
      rw [chListLe, chListLe]
      by_cases hxy : x < y
      · left
        rw [if_pos hxy]
      · by_cases hyx : y < x
        · right
          rw [if_pos hyx]
        · have hxyeq : x = y := le_antisymm (not_lt.1 hyx) (not_lt.1 hxy)
          subst hxyeq
          simp only [if_neg hxy]
          exact ih ys

theorem chListLe_antisymm : ∀ a b : List Char,
    chListLe a b = true → chListLe b a = true → a = b := by
  intro a
  induction a with
  | nil =>
    intro b _ hba
    cases b with
    | nil => rfl
    | cons y ys => simp [chListLe] at hba
  | cons x xs ih =>
    intro b hab hba
    cases b with
    | nil => simp [chListLe] at hab
    | cons y ys =>
      rw [chListLe] at hab hba
      by_cases hxy : x < y
      · rw [if_pos hxy] at hab
        rw [if_neg (lt_asymm hxy), if_pos hxy] at hba
        simp at hba
      · by_cases hyx : y < x
        · rw [if_neg hxy, if_pos hyx] at hab
          simp at hab
        · have hxyeq : x = y := le_antisymm (not_lt.1 hyx) (not_lt.1 hxy)
          subst hxyeq
          simp only [if_neg hxy] at hab hba
          rw [ih ys hab hba]

theorem entryLe_trans : ∀ a b c : String × LabVal,
    entryLe a b = true → entryLe b c = true → entryLe a c = true :=
  fun _ _ _ hab hbc => chListLe_trans _ _ _ hab hbc

theorem entryLe_total : ∀ a b : String × LabVal,
    (entryLe a b || entryLe b a) = true := by
  intro a b
  rcases chListLe_total a.1.data b.1.data with h | h <;> simp [entryLe, h]

/-- The strict version of the entry order used to show sorted forms of a
permutation pair coincide. -/
def entryStrict (a b : String × LabVal) : Prop := entryLe a b = true ∧ a.1 ≠ b.1

instance : IsAntisymm (String × LabVal) entryStrict :=
  ⟨fun a b hab hba =>
    absurd (String.ext (chListLe_antisymm _ _ hab.1 hba.1)) hab.2⟩

theorem insertBy_perm (le : α → α → Bool) (x : α) (l : List α) :
    (insertBy le x l).Perm (x :: l) := by
  induction l with
  | nil => exact List.Perm.refl _
  | cons y ys ih =>
    rw [insertBy]
    by_cases h : le x y
    · rw [if_pos h]
    · rw [if_neg h]
      exact (ih.cons y).trans (List.Perm.swap x y ys)

theorem insortBy_perm (le : α → α → Bool) (l : List α) :
    (insortBy le l).Perm l := by
  induction l with
  | nil => exact List.Perm.refl _
  | cons x xs ih =>
    exact (insertBy_perm le x (insortBy le xs)).trans (ih.cons x)

theorem pairwise_insertBy {le : α → α → Bool}
    (htrans : ∀ a b c, le a b = true → le b c = true → le a c = true)
    (htotal : ∀ a b, (le a b || le b a) = true) (x : α) {l : List α}
    (hl : l.Pairwise (fun a b => le a b = true)) :
    (insertBy le x l).Pairwise (fun a b => le a b = true) := by
  induction l with
  | nil => simp [insertBy]
  | cons y ys ih =>
    rw [insertBy]
    rcases List.pairwise_cons.1 hl with ⟨hy, hys⟩
    by_cases h : le x y
    · rw [if_pos h]
      refine List.pairwise_cons.2 ⟨?_, hl⟩
      intro z hz
      rcases List.mem_cons.1 hz with hz | hz
      · rw [hz]
        exact h
      · exact htrans x y z h (hy z hz)
    · rw [if_neg h]
      have hyx : le y x = true := by
        rcases Bool.or_eq_true_iff.1 (htotal x y) with h2 | h2
        · exact absurd h2 h
        · exact h2
      refine List.pairwise_cons.2 ⟨?_, ih hys⟩
      intro z hz
      have : z ∈ x :: ys := ((insertBy_perm le x ys).mem_iff).1 hz
      rcases List.mem_cons.1 this with hz2 | hz2
      · rw [hz2]
        exact hyx
      · exact hy z hz2

theorem pairwise_insortBy {le : α → α → Bool}
    (htrans : ∀ a b c, le a b = true → le b c = true → le a c = true)
    (htotal : ∀ a b, (le a b || le b a) = true) (l : List α) :
    (insortBy le l).Pairwise (fun a b => le a b = true) := by
  induction l with
  | nil => simp [insortBy]
  | cons x xs ih => exact pairwise_insertBy htrans htotal x ih

theorem sortByKey_perm (l : Labels) : (sortByKey l).Perm l :=
  insortBy_perm entryLe l

theorem sortByKey_pairwise (l : Labels) :
    (sortByKey l).Pairwise (fun a b => entryLe a b = true) :=
  pairwise_insortBy entryLe_trans entryLe_total l

theorem sortByKey_sorted_strict {l : Labels} (hn : (keysOf l).Nodup) :
    List.Sorted entryStrict (sortByKey l) := by
  have hnodup : (keysOf (sortByKey l)).Nodup :=
    (((sortByKey_perm l).map Prod.fst).nodup_iff).2 hn
  have hne : (sortByKey l).Pairwise (fun a b => a.1 ≠ b.1) := by
    have h2 : (List.map Prod.fst (sortByKey l)).Pairwise (· ≠ ·) := hnodup
    exact List.pairwise_map.1 h2
  exact (sortByKey_pairwise l).and hne

theorem canonList_eq_of_perm {l₁ l₂ : Labels} (hp : l₁.Perm l₂)
    (hn : (keysOf l₁).Nodup) : canonList l₁ = canonList l₂ := by
  have hn₂ : (keysOf l₂).Nodup := ((hp.map Prod.fst).nodup_iff).1 hn
  have hperm : (sortByKey l₁).Perm (sortByKey l₂) :=
    ((sortByKey_perm l₁).trans hp).trans (sortByKey_perm l₂).symm
  exact List.eq_of_perm_of_sorted hperm
    (sortByKey_sorted_strict hn) (sortByKey_sorted_strict hn₂)

theorem canonList_eq_of_alookup {l₁ l₂ : Labels}
    (hn₁ : (keysOf l₁).Nodup) (hn₂ : (keysOf l₂).Nodup)
    (h : ∀ k, alookup k l₁ = alookup k l₂) : canonList l₁ = canonList l₂ :=
  canonList_eq_of_perm (perm_of_alookup_eq hn₁ hn₂ h) hn₁

theorem alookup_canonList {l : Labels} (hn : (keysOf l).Nodup) (k : String) :
    alookup k (canonList l) = alookup k l := by
  have hns : (keysOf (sortByKey l)).Nodup :=
    (((sortByKey_perm l).map Prod.fst).nodup_iff).2 hn
  exact alookup_of_perm (sortByKey_perm l) hns k

theorem upsert_perm {l₁ l₂ : Labels} (hp : l₁.Perm l₂)
    (hn : (keysOf l₁).Nodup) (k : String) (v : LabVal) :
    (upsert l₁ k v).Perm (upsert l₂ k v) := by
  unfold upsert
  have hmemiff : k ∈ keysOf l₁ ↔ k ∈ keysOf l₂ := (hp.map Prod.fst).mem_iff
  by_cases hmem : k ∈ keysOf l₁
  · rw [if_pos hmem, if_pos (hmemiff.1 hmem)]
    exact hp.map _
  · rw [if_neg hmem, if_neg (fun h => hmem (hmemiff.2 h))]
    exact hp.append_right _

theorem labelsUpdate_perm {l₁ l₂ : Labels} (base : Labels) (hp : l₁.Perm l₂)
    (hn : (keysOf l₁).Nodup) : (labelsUpdate l₁ base).Perm (labelsUpdate l₂ base) := by
  induction base generalizing l₁ l₂ with
  | nil => exact hp
  | cons kv bs ih =>
    rw [labelsUpdate_cons, labelsUpdate_cons]
    exact ih (upsert_perm hp hn kv.1 kv.2) (nodup_keysOf_upsert kv.1 kv.2 hn)

/-- C5.  Label canonicalization is order-independent and deterministic:
two label dictionaries holding the same key/value pairs in different
insertion orders produce the same canonical label string out of
`Metric._labels` (the JSON serialization with lexicographically sorted
keys), for any base-label dictionary. -/
theorem canonical_labels_order_independent (base l₁ l₂ : Labels)
    (hperm : l₁.Perm l₂) (hn : (keysOf l₁).Nodup) :
    (Metric.labelsFn base l₁).2 = (Metric.labelsFn base l₂).2 := by
  have hp2 : (labelsUpdate l₁ base).Perm (labelsUpdate l₂ base) :=
    labelsUpdate_perm base hperm hn
  have hn2 : (keysOf (labelsUpdate l₁ base)).Nodup :=
    nodup_keysOf_labelsUpdate base hn
  have h : canonList (labelsUpdate l₁ base) = canonList (labelsUpdate l₂ base) :=
    canonList_eq_of_perm hp2 hn2
  simp only [canonList] at h
  show serializeLabels (sortByKey (labelsUpdate l₁ base)) =
    serializeLabels (sortByKey (labelsUpdate l₂ base))
  rw [h]

/-- Witness for C5 at a concrete permuted pair of label dictionaries. -/
theorem canonical_labels_order_independent_witness :
    ([(("b" : String), LabVal.num 2), ("a", LabVal.str "x")].Perm
      [("a", LabVal.str "x"), ("b", LabVal.num 2)] ∧
     (keysOf [(("b" : String), LabVal.num 2), ("a", LabVal.str "x")]).Nodup) ∧
    (Metric.labelsFn [("host", LabVal.str "h")]
        [(("b" : String), LabVal.num 2), ("a", LabVal.str "x")]).2 =
      (Metric.labelsFn [("host", LabVal.str "h")]
        [("a", LabVal.str "x"), ("b", LabVal.num 2)]).2 :=
  ⟨⟨by decide, by decide⟩,
    canonical_labels_order_independent [("host", LabVal.str "h")] _ _
      (by decide) (by decide)⟩

/-! ## Merge characterizations -/

/-- Option-level combination performed by one counter/histogram merge:
the existing value (if any) plus the incoming value (if any); the Python
loop computes `new + existing`. -/
def ocomb (a b : Option ℚ) : Option ℚ :=
  match a, b with
  | none, b => b
  | some x, none => some x
  | some x, some y => some (y + x)

/-- The sum of the per-fragment values under one canonical key: absent
when no fragment carries the key. -/
def osum : List ℚ → Option ℚ
  | [] => none
  | x :: xs => some ((x :: xs).sum)

theorem vkeys_cons (kv : Labels × ℚ) (vs : Values) :
    vkeys (kv :: vs) = kv.1 :: vkeys vs := rfl

theorem vlookup_eq_none_iff (k : Labels) (vs : Values) :
    vlookup k vs = none ↔ k ∉ vkeys vs := by
  induction vs with
  | nil => simp [vlookup, vkeys]
  | cons kv rest ih =>
    rw [vkeys_cons]
    simp only [vlookup, List.mem_cons]
    by_cases h : kv.1 = k
    · simp [h]
    · simp only [if_neg h, ih]
      constructor
      · rintro hnot (he | hm)
        · exact h he.symm
        · exact hnot hm
      · exact fun hnot hm => hnot (Or.inr hm)

theorem vlookup_append (k : Labels) (l₁ l₂ : Values) :
    vlookup k (l₁ ++ l₂) = (vlookup k l₁).or (vlookup k l₂) := by
  induction l₁ with
  | nil => simp [vlookup]
  | cons kv rest ih =>
    by_cases h : kv.1 = k <;> simp [vlookup, h, ih]

theorem vreplace_cons (kv : Labels × ℚ) (vs : Values) (k1 : Labels) (q : ℚ) :
    vreplace (kv :: vs) k1 q =
      (if kv.1 = k1 then (k1, q) else kv) :: vreplace vs k1 q := rfl

theorem vlookup_vreplace_ne {k1 k : Labels} (h : k1 ≠ k) (vs : Values) (q : ℚ) :
    vlookup k (vreplace vs k1 q) = vlookup k vs := by
  induction vs with
  | nil => rfl
  | cons kv rest ih =>
    rw [vreplace_cons]
    by_cases hk : kv.1 = k1
    · have h3 : ¬ kv.1 = k := by rw [hk]; exact h
      simp only [vlookup, if_pos hk, if_neg (h : ¬ k1 = k), if_neg h3]
      exact ih
    · simp only [vlookup, if_neg hk]
      by_cases hk2 : kv.1 = k
      · simp only [if_pos hk2]
      · simp only [if_neg hk2]
        exact ih

theorem vlookup_vreplace_self {k : Labels} {vs : Values} {w : ℚ}
    (h : vlookup k vs = some w) (q : ℚ) :
    vlookup k (vreplace vs k q) = some q := by
  induction vs with
  | nil => simp [vlookup] at h
  | cons kv rest ih =>
    rw [vreplace_cons]
    by_cases hk : kv.1 = k
    · simp [if_pos hk, vlookup]
    · simp only [vlookup, if_neg hk] at h
      simp only [if_neg hk, vlookup, if_neg hk]
      exact ih h

theorem vlookup_mergeStep_ne {metric_type : String} {kv : Labels × ℚ} {k : Labels}
    (h : kv.1 ≠ k) (ex : Values) :
    vlookup k (RedisExporter.mergeStep metric_type ex kv) = vlookup k ex := by
  unfold RedisExporter.mergeStep
  cases hex : vlookup kv.1 ex with
  | some oldv =>
    by_cases h1 : metric_type = "counter" || metric_type = "histogram"
    · simp [h1, vlookup_vreplace_ne h]
    · by_cases h2 : metric_type = "gauge" <;>
        simp [h1, h2, vlookup_vreplace_ne h]
  | none =>
    simp [vlookup_append, vlookup, h]

theorem vlookup_mergeStep_self_ch {metric_type : String}
    (hch : (metric_type = "counter" || metric_type = "histogram") = true)
    (kv : Labels × ℚ) (ex : Values) :
    vlookup kv.1 (RedisExporter.mergeStep metric_type ex kv) =
      ocomb (vlookup kv.1 ex) (some kv.2) := by
  unfold RedisExporter.mergeStep
  cases hex : vlookup kv.1 ex with
  | some oldv => simp [hch, vlookup_vreplace_self hex, ocomb]
  | none => simp [vlookup_append, hex, vlookup, ocomb]

theorem vlookup_mergeStep_self_gauge (kv : Labels × ℚ) (ex : Values) :
    vlookup kv.1 (RedisExporter.mergeStep "gauge" ex kv) = some kv.2 := by
  unfold RedisExporter.mergeStep
  cases hex : vlookup kv.1 ex with
  | some oldv => simp [vlookup_vreplace_self hex]
  | none => simp [vlookup_append, hex, vlookup]

theorem vlookup_mergeStep_self_other {metric_type : String}
    (h1 : metric_type ≠ "counter") (h2 : metric_type ≠ "histogram")
    (h3 : metric_type ≠ "gauge") (kv : Labels × ℚ) (ex : Values) :
    vlookup kv.1 (RedisExporter.mergeStep metric_type ex kv) =
      (vlookup kv.1 ex).or (some kv.2) := by
  unfold RedisExporter.mergeStep
  cases hex : vlookup kv.1 ex with
  | some oldv => simp [h1, h2, h3, hex]
  | none => simp [vlookup_append, hex, vlookup]

theorem vlookup_mergeInto_ch {metric_type : String}
    (hch : (metric_type = "counter" || metric_type = "histogram") = true)
    {f : Values} (hnf : (vkeys f).Nodup) (k : Labels) (ex : Values) :
    vlookup k (RedisExporter.mergeInto metric_type ex f) =
      ocomb (vlookup k ex) (vlookup k f) := by
  induction f generalizing ex with
  | nil =>
    cases h : vlookup k ex <;> simp [RedisExporter.mergeInto, vlookup, ocomb, h]
  | cons kv f' ih =>
    rw [vkeys_cons] at hnf
    have hnf' : (vkeys f').Nodup := (List.nodup_cons.1 hnf).2
    have hstep : RedisExporter.mergeInto metric_type ex (kv :: f') =
        RedisExporter.mergeInto metric_type
          (RedisExporter.mergeStep metric_type ex kv) f' := rfl
    rw [hstep, ih hnf']
    by_cases hk : kv.1 = k
    · subst hk
      have hnone : vlookup kv.1 f' = none :=
        (vlookup_eq_none_iff kv.1 f').2 (List.nodup_cons.1 hnf).1
      rw [vlookup_mergeStep_self_ch hch, hnone]
      cases h : vlookup kv.1 ex <;> simp [vlookup, ocomb]
    · rw [vlookup_mergeStep_ne hk]
      simp [vlookup, hk]

theorem vlookup_mergeInto_gauge {f : Values} (hnf : (vkeys f).Nodup)
    (k : Labels) (ex : Values) :
    vlookup k (RedisExporter.mergeInto "gauge" ex f) =
      (vlookup k f).or (vlookup k ex) := by
  induction f generalizing ex with
  | nil => simp [RedisExporter.mergeInto, vlookup]
  | cons kv f' ih =>
    rw [vkeys_cons] at hnf
    have hnf' : (vkeys f').Nodup := (List.nodup_cons.1 hnf).2
    have hstep : RedisExporter.mergeInto "gauge" ex (kv :: f') =
        RedisExporter.mergeInto "gauge"
          (RedisExporter.mergeStep "gauge" ex kv) f' := rfl
    rw [hstep, ih hnf']
    by_cases hk : kv.1 = k
    · subst hk
      have hnone : vlookup kv.1 f' = none :=
        (vlookup_eq_none_iff kv.1 f').2 (List.nodup_cons.1 hnf).1
      rw [hnone, vlookup_mergeStep_self_gauge]
      simp [vlookup]
    · rw [vlookup_mergeStep_ne hk]
      simp [vlookup, hk]

theorem vlookup_mergeInto_other {metric_type : String}
    (h1 : metric_type ≠ "counter") (h2 : metric_type ≠ "histogram")
    (h3 : metric_type ≠ "gauge") {f : Values} (hnf : (vkeys f).Nodup)
    (k : Labels) (ex : Values) :
    vlookup k (RedisExporter.mergeInto metric_type ex f) =
      (vlookup k ex).or (vlookup k f) := by
  induction f generalizing ex with
  | nil => simp [RedisExporter.mergeInto, vlookup]
  | cons kv f' ih =>
    rw [vkeys_cons] at hnf
    have hnf' : (vkeys f').Nodup := (List.nodup_cons.1 hnf).2
    have hstep : RedisExporter.mergeInto metric_type ex (kv :: f') =
        RedisExporter.mergeInto metric_type
          (RedisExporter.mergeStep metric_type ex kv) f' := rfl
    rw [hstep, ih hnf']
    by_cases hk : kv.1 = k
    · subst hk
      have hnone : vlookup kv.1 f' = none :=
        (vlookup_eq_none_iff kv.1 f').2 (List.nodup_cons.1 hnf).1
      rw [hnone, vlookup_mergeStep_self_other h1 h2 h3]
      cases h : vlookup kv.1 ex <;> simp [vlookup, Option.or]
    · rw [vlookup_mergeStep_ne hk]
      simp [vlookup, hk]

theorem ocomb_none_right (a : Option ℚ) : ocomb a none = a := by
  cases a <;> rfl

theorem ocomb_assoc_osum (a b : Option ℚ) (l : List ℚ) :
    ocomb (ocomb a b) (osum l) = ocomb a (osum (b.toList ++ l)) := by
  cases a with
  | none =>
    cases b with
    | none => rfl
    | some x =>
      cases l with
      | nil => simp [ocomb, osum]
      | cons y l' => simp [ocomb, osum]; ring
  | some x =>
    cases b with
    | none => rfl
    | some y =>
      cases l with
      | nil => simp [ocomb, osum]
      | cons z l' => simp [ocomb, osum]; ring

theorem osum_perm {l₁ l₂ : List ℚ} (hp : l₁.Perm l₂) : osum l₁ = osum l₂ := by
  cases l₁ with
  | nil =>
    cases l₂ with
    | nil => rfl
    | cons y ys => exact absurd hp (by simp)
  | cons x xs =>
    cases l₂ with
    | nil => exact absurd hp (by simp)
    | cons y ys =>
      simp only [osum]
      rw [hp.sum_eq]

theorem filterMap_vlookup_cons (k : Labels) (f : Values) (fs : List Values) :
    (f :: fs).filterMap (vlookup k) =
      (vlookup k f).toList ++ fs.filterMap (vlookup k) := by
  rw [List.filterMap_cons]
  cases h : vlookup k f <;> simp

theorem vlookup_foldl_ch {metric_type : String}
    (hch : (metric_type = "counter" || metric_type = "histogram") = true)
    {fs : List Values} (hn : ∀ f ∈ fs, (vkeys f).Nodup) (k : Labels) (ex : Values) :
    vlookup k (fs.foldl (RedisExporter.mergeInto metric_type) ex) =
      ocomb (vlookup k ex) (osum (fs.filterMap (vlookup k))) := by
  induction fs generalizing ex with
  | nil => simp [osum, ocomb_none_right]
  | cons f fs ih =>
    rw [List.foldl_cons,
      ih (fun g hg => hn g (List.mem_cons_of_mem _ hg)),
      vlookup_mergeInto_ch hch (hn f (by simp)) k ex,
      filterMap_vlookup_cons, ← ocomb_assoc_osum]

theorem mergeAll_lookup_ch {metric_type : String}
    (hch : (metric_type = "counter" || metric_type = "histogram") = true)
    {fs : List Values} (hn : ∀ f ∈ fs, (vkeys f).Nodup) (k : Labels) :
    vlookup k (RedisExporter.mergeAll metric_type fs) =
      osum (fs.filterMap (vlookup k)) := by
  cases fs with
  | nil => simp [RedisExporter.mergeAll, vlookup, osum]
  | cons f fs =>
    have : RedisExporter.mergeAll metric_type (f :: fs) =
        fs.foldl (RedisExporter.mergeInto metric_type) f := rfl
    rw [this, vlookup_foldl_ch hch (fun g hg => hn g (List.mem_cons_of_mem _ hg)) k f,
      filterMap_vlookup_cons]
    have h0 : ocomb (vlookup k f) (osum (fs.filterMap (vlookup k))) =
        ocomb (ocomb none (vlookup k f)) (osum (fs.filterMap (vlookup k))) := rfl
    rw [h0, ocomb_assoc_osum]
    rfl

/-- C1.  For counter and histogram metrics the collector's merge over
the per-process fragments of one logical metric yields, at every
canonical label key, the arithmetic sum of the per-process values
stored under that key (absent when no fragment carries the key), and
the merged value is the same for any visitation order of the
fragments. -/
theorem counter_histogram_merge_is_sum (metric_type : String)
    (hm : metric_type = "counter" ∨ metric_type = "histogram")
    (fs₁ fs₂ : List Values) (hperm : fs₁.Perm fs₂)
    (hn : ∀ f ∈ fs₁, (vkeys f).Nodup) (k : Labels) :
    vlookup k (RedisExporter.mergeAll metric_type fs₁) =
      osum (fs₁.filterMap (vlookup k)) ∧
    vlookup k (RedisExporter.mergeAll metric_type fs₂) =
      osum (fs₂.filterMap (vlookup k)) ∧
    vlookup k (RedisExporter.mergeAll metric_type fs₁) =
      vlookup k (RedisExporter.mergeAll metric_type fs₂) := by
  have hch : (metric_type = "counter" || metric_type = "histogram") = true := by
    rcases hm with h | h <;> simp [h]
  have hn₂ : ∀ f ∈ fs₂, (vkeys f).Nodup := fun f hf => hn f (hperm.mem_iff.2 hf)
  have h₁ := mergeAll_lookup_ch hch hn k
  have h₂ := mergeAll_lookup_ch hch hn₂ k
  refine ⟨h₁, h₂, ?_⟩
  rw [h₁, h₂]
  exact osum_perm (hperm.filterMap (vlookup k))

/-- Witness for C1: three counter fragments carrying 1, 44 and 3 under
the same canonical label key merge to 48 in either visitation order. -/
theorem counter_histogram_merge_is_sum_witness :
    vlookup [("a", LabVal.str "x")]
        (RedisExporter.mergeAll "counter"
          [[([("a", LabVal.str "x")], 1)], [([("a", LabVal.str "x")], 44)],
           [([("a", LabVal.str "x")], 3)]]) =
      osum ([[([("a", LabVal.str "x")], 1)], [([("a", LabVal.str "x")], 44)],
           [([("a", LabVal.str "x")], 3)]].filterMap
        (vlookup [("a", LabVal.str "x")])) ∧
    vlookup [("a", LabVal.str "x")]
        (RedisExporter.mergeAll "counter"
          [[([("a", LabVal.str "x")], 44)], [([("a", LabVal.str "x")], 3)],
           [([("a", LabVal.str "x")], 1)]]) =
      osum ([[([("a", LabVal.str "x")], 44)], [([("a", LabVal.str "x")], 3)],
           [([("a", LabVal.str "x")], 1)]].filterMap
        (vlookup [("a", LabVal.str "x")])) ∧
    vlookup [("a", LabVal.str "x")]
        (RedisExporter.mergeAll "counter"
          [[([("a", LabVal.str "x")], 1)], [([("a", LabVal.str "x")], 44)],
           [([("a", LabVal.str "x")], 3)]]) =
      vlookup [("a", LabVal.str "x")]
        (RedisExporter.mergeAll "counter"
          [[([("a", LabVal.str "x")], 44)], [([("a", LabVal.str "x")], 3)],
           [([("a", LabVal.str "x")], 1)]]) :=
  counter_histogram_merge_is_sum "counter" (Or.inl rfl) _ _
    (by decide) (by decide) [("a", LabVal.str "x")]

theorem getLast?_toList_append (b : Option ℚ) (l : List ℚ) :
    (b.toList ++ l).getLast? = l.getLast?.or b := by
  rw [List.getLast?_append]
  cases b <;> rfl

theorem option_or_assoc (a b c : Option ℚ) : (a.or b).or c = a.or (b.or c) := by
  cases a <;> rfl

theorem vlookup_foldl_gauge {fs : List Values}
    (hn : ∀ f ∈ fs, (vkeys f).Nodup) (k : Labels) (ex : Values) :
    vlookup k (fs.foldl (RedisExporter.mergeInto "gauge") ex) =
      ((fs.filterMap (vlookup k)).getLast?).or (vlookup k ex) := by
  induction fs generalizing ex with
  | nil => rfl
  | cons f fs ih =>
    rw [List.foldl_cons,
      ih (fun g hg => hn g (List.mem_cons_of_mem _ hg)),
      vlookup_mergeInto_gauge (hn f (by simp)) k ex,
      filterMap_vlookup_cons, getLast?_toList_append, option_or_assoc]

/-- C8.  For gauge metrics the collector's merged value at every
canonical label key is the value carried by the last-processed fragment
holding that key, in the collector's fragment visitation order. -/
theorem gauge_merge_last_fragment_wins (fs : List Values)
    (hn : ∀ f ∈ fs, (vkeys f).Nodup) (k : Labels) :
    vlookup k (RedisExporter.mergeAll "gauge" fs) =
      (fs.filterMap (vlookup k)).getLast? := by
  cases fs with
  | nil => rfl
  | cons f fs =>
    have h0 : RedisExporter.mergeAll "gauge" (f :: fs) =
        fs.foldl (RedisExporter.mergeInto "gauge") f := rfl
    rw [h0, vlookup_foldl_gauge (fun g hg => hn g (List.mem_cons_of_mem _ hg)) k f,
      filterMap_vlookup_cons, getLast?_toList_append]

/-- Witness for C8: three gauge fragments setting 9000, 9001, 1000
visited in that order merge to the last value, 1000. -/
theorem gauge_merge_last_fragment_wins_witness :
    vlookup [("a", LabVal.str "x")]
        (RedisExporter.mergeAll "gauge"
          [[([("a", LabVal.str "x")], 9000)], [([("a", LabVal.str "x")], 9001)],
           [([("a", LabVal.str "x")], 1000)]]) =
      ([[([("a", LabVal.str "x")], 9000)], [([("a", LabVal.str "x")], 9001)],
           [([("a", LabVal.str "x")], 1000)]].filterMap
        (vlookup [("a", LabVal.str "x")])).getLast? ∧
    vlookup [("a", LabVal.str "x")]
        (RedisExporter.mergeAll "gauge"
          [[([("a", LabVal.str "x")], 9000)], [([("a", LabVal.str "x")], 9001)],
           [([("a", LabVal.str "x")], 1000)]]) = some 1000 :=
  ⟨gauge_merge_last_fragment_wins _ (by decide) [("a", LabVal.str "x")], by decide⟩

theorem vlookup_foldl_other {metric_type : String}
    (h1 : metric_type ≠ "counter") (h2 : metric_type ≠ "histogram")
    (h3 : metric_type ≠ "gauge") {fs : List Values}
    (hn : ∀ f ∈ fs, (vkeys f).Nodup) (k : Labels) (ex : Values) :
    vlookup k (fs.foldl (RedisExporter.mergeInto metric_type) ex) =
      (vlookup k ex).or ((fs.filterMap (vlookup k)).head?) := by
  induction fs generalizing ex with
  | nil =>
    simp only [List.foldl_nil, List.filterMap_nil, List.head?_nil]
    cases h : vlookup k ex <;> rfl
  | cons f fs ih =>
    rw [List.foldl_cons,
      ih (fun g hg => hn g (List.mem_cons_of_mem _ hg)),
      vlookup_mergeInto_other h1 h2 h3 (hn f (by simp)) k ex,
      filterMap_vlookup_cons, option_or_assoc]
    cases hb : vlookup k f with
    | none => rfl
    | some x => cases h : vlookup k ex <;> rfl

theorem getAllAux_eq_foldl {metric_type : String}
    (h : metric_type ≠ "histogram") (fs : List Values) (acc : Values) :
    RedisExporter.getAllAux metric_type acc fs =
      .ok (fs.foldl (RedisExporter.mergeInto metric_type) acc) := by
  induction fs generalizing acc with
  | nil => rfl
  | cons f fs ih =>
    have hg : RedisExporter.get_metric metric_type f (some acc) =
        .ok (RedisExporter.mergeInto metric_type acc f) := by
      unfold RedisExporter.get_metric
      rw [if_neg h]
    simp only [RedisExporter.getAllAux, hg, List.foldl_cons]
    exact ih _

theorem get_all_eq_mergeAll {metric_type : String}
    (h : metric_type ≠ "histogram") (fs : List Values) :
    RedisExporter.get_all_metrics metric_type fs =
      .ok (RedisExporter.mergeAll metric_type fs) := by
  cases fs with
  | nil => rfl
  | cons f fs =>
    have hg : RedisExporter.get_metric metric_type f none = .ok f := by
      unfold RedisExporter.get_metric
      rw [if_neg h]
    simp only [RedisExporter.get_all_metrics, hg, getAllAux_eq_foldl h]
    rfl

/-- C3 counterexample.  Merging two per-process fragments of a
summary-typed metric does not fail: the collector returns a merged
table (keeping the first-processed value for the shared canonical key);
no `UnsupportedMetricType` error is raised anywhere in the merge path,
refuting the claim that summary merging fails with that error. -/
theorem summary_merge_does_not_fail :
    RedisExporter.get_all_metrics "summary"
        [[([("a", LabVal.str "x")], 5)], [([("a", LabVal.str "x")], 7)]] =
      .ok [([("a", LabVal.str "x")], 5)] := rfl

/-- C3 amended.  Merging per-process fragments of a summary-typed
metric succeeds (the fold returns a table, never an error): the summary
type has no merge rule, so for every canonical label key the value of
the first-processed fragment carrying it is kept and values from later
fragments are ignored. -/
theorem summary_merge_first_fragment_wins (fs : List Values)
    (hn : ∀ f ∈ fs, (vkeys f).Nodup) (k : Labels) :
    RedisExporter.get_all_metrics "summary" fs =
      .ok (RedisExporter.mergeAll "summary" fs) ∧
    vlookup k (RedisExporter.mergeAll "summary" fs) =
      (fs.filterMap (vlookup k)).head? := by
  refine ⟨get_all_eq_mergeAll (by decide) fs, ?_⟩
  cases fs with
  | nil => rfl
  | cons f fs =>
    have h0 : RedisExporter.mergeAll "summary" (f :: fs) =
        fs.foldl (RedisExporter.mergeInto "summary") f := rfl
    rw [h0, vlookup_foldl_other (by decide) (by decide) (by decide)
      (fun g hg => hn g (List.mem_cons_of_mem _ hg)) k f,
      filterMap_vlookup_cons]
    cases hb : vlookup k f <;> simp [hb]

/-- Witness for the amended C3 at concrete summary fragments. -/
theorem summary_merge_first_fragment_wins_witness :
    (RedisExporter.get_all_metrics "summary"
        [[([("b", LabVal.num 1)], 5)], [([("b", LabVal.num 1)], 7)]] =
      .ok (RedisExporter.mergeAll "summary"
        [[([("b", LabVal.num 1)], 5)], [([("b", LabVal.num 1)], 7)]]) ∧
     vlookup [("b", LabVal.num 1)]
        (RedisExporter.mergeAll "summary"
          [[([("b", LabVal.num 1)], 5)], [([("b", LabVal.num 1)], 7)]]) =
      ([[([("b", LabVal.num 1)], 5)], [([("b", LabVal.num 1)], 7)]].filterMap
        (vlookup [("b", LabVal.num 1)])).head?) ∧
    vlookup [("b", LabVal.num 1)]
        (RedisExporter.mergeAll "summary"
          [[([("b", LabVal.num 1)], 5)], [([("b", LabVal.num 1)], 7)]]) = some 5 :=
  ⟨summary_merge_first_fragment_wins _ (by decide) [("b", LabVal.num 1)], by decide⟩

/-! ## Counter decrement and constructor validation -/

/-- C7.  Every decrement call on a counter fails with the
unsupported-operation error (`Counter.dec` raises `TypeError`
unconditionally), for any base labels, store, label dictionary and
amount — negative amounts included; since the call fails before any
store operation is issued, the stored samples are untouched. -/
theorem counter_dec_always_unsupported (base : Labels) (st : Store)
    (l : Labels) (amount : ℚ) :
    Counter.dec base st l amount = .error Err.unsupportedOperation := rfl

/-- C9 counterexample.  The constructor check accepts the name
`"a\tb"`, which contains a tab — a whitespace character — refuting
"fails whenever the metric name contains any whitespace character"
(only the space character is rejected); and it accepts the metric type
`"untyped"`, which is not one of the four kinds named by the claim,
refuting "fails whenever the metric type is not one of the four
recognized kinds". -/
theorem metric_init_accepts_tab_and_untyped :
    metricInitCheck "a\tb" "counter" = .ok () ∧
    metricInitCheck "x" "untyped" = .ok () := ⟨rfl, rfl⟩

/-- C9 amended.  Metric construction fails with `InvalidArgument`
exactly when the name contains a space character `' '` (other
whitespace is accepted), or the metric type is not one of the five
recognized kinds `untyped, gauge, counter, summary, histogram`;
otherwise the validation succeeds. -/
theorem metric_init_invalid_iff (name metric_type : String) :
    metricInitCheck name metric_type = .error Err.invalidArgument ↔
      (' ' ∈ name.data ∨ metric_type ∉ metric_types) := by
  have hspace : containsSpace name = true ↔ ' ' ∈ name.data := by
    simp [containsSpace, List.any_eq_true]
  have hin : strIn metric_type metric_types = true ↔ metric_type ∈ metric_types := by
    constructor
    · intro h
      rcases List.any_eq_true.1 h with ⟨x, hx, he⟩
      have : x = metric_type := by simpa using he
      exact this ▸ hx
    · intro h
      exact List.any_eq_true.2 ⟨metric_type, h, by simp⟩
  unfold metricInitCheck
  by_cases h1 : containsSpace name
  · simp only [if_pos h1]
    simp [hspace.1 h1]
  · rw [if_neg h1]
    by_cases h2 : strIn metric_type metric_types
    · simp only [h2, Bool.not_true, Bool.false_eq_true, if_neg (by simp : ¬ False)]
      constructor
      · intro h
        exact absurd h (by simp)
      · rintro (hs | ht)
        · exact absurd (hspace.2 hs) h1
        · exact absurd (hin.1 h2) ht
    · have h2' : (!strIn metric_type metric_types) = true := by
        simp [Bool.not_eq_true'] at h2 ⊢
        exact h2
      rw [if_pos h2']
      simp only [true_iff]
      right
      intro hmem
      exact h2 (hin.2 hmem)

/-! ## Histogram bucket ordering after merge -/

theorem py2le_trans : ∀ a b c : LabVal,
    py2le a b = true → py2le b c = true → py2le a c = true := by
  intro a b c hab hbc
  cases a with
  | num qa =>
    cases c with
    | str sc => rfl
    | num qc =>
      cases b with
      | num qb =>
        simp only [py2le, decide_eq_true_eq] at hab hbc ⊢
        exact le_trans hab hbc
      | str sb => simp [py2le] at hbc
  | str sa =>
    cases b with
    | num qb => simp [py2le] at hab
    | str sb =>
      cases c with
      | num qc => simp [py2le] at hbc
      | str sc => exact chListLe_trans _ _ _ hab hbc

theorem py2le_total : ∀ a b : LabVal, (py2le a b || py2le b a) = true := by
  intro a b
  cases a with
  | num qa =>
    cases b with
    | num qb =>
      rcases le_total qa qb with h | h <;> simp [py2le, h]
    | str sb => simp [py2le]
  | str sa =>
    cases b with
    | num qb => simp [py2le]
    | str sb =>
      rcases chListLe_total sa.data sb.data with h | h <;> simp [py2le, h]

theorem lookupAll_ok_keys {vs : Values} : ∀ {ks : List Labels} {out : Values},
    RedisExporter.lookupAll vs ks = .ok out → vkeys out = ks := by
  intro ks
  induction ks with
  | nil =>
    intro out h
    simp only [RedisExporter.lookupAll] at h
    cases h
    rfl
  | cons k ks ih =>
    intro out h
    simp only [RedisExporter.lookupAll] at h
    cases hv : vlookup k vs with
    | none => rw [hv] at h; cases h
    | some q =>
      rw [hv] at h
      cases hrec : RedisExporter.lookupAll vs ks with
      | error e => rw [hrec] at h; cases h
      | ok rest =>
        rw [hrec] at h
        cases h
        rw [vkeys_cons, ih hrec]

theorem sortHist_ok_sorted {vs out : Values}
    (h : RedisExporter.sortHist vs = .ok out) :
    out.Pairwise (fun a b => py2le (leV a.1) (leV b.1) = true) := by
  unfold RedisExporter.sortHist at h
  by_cases hall : vs.all (fun kv => (alookup "le" kv.1).isSome)
  · rw [if_pos hall] at h
    have hkeys : vkeys out = insortBy (fun a b => py2le (leV a) (leV b)) (vkeys vs) :=
      lookupAll_ok_keys h
    have hsorted : (insortBy (fun a b => py2le (leV a) (leV b)) (vkeys vs)).Pairwise
        (fun a b => py2le (leV a) (leV b) = true) :=
      pairwise_insortBy (fun a b c => py2le_trans (leV a) (leV b) (leV c))
        (fun a b => py2le_total (leV a) (leV b)) (vkeys vs)
    rw [← hkeys] at hsorted
    exact List.pairwise_map.1 hsorted
  · rw [if_neg hall] at h
    cases h

theorem getAllAux_hist_ok {acc out : Values} {fs : List Values}
    (hacc : acc.Pairwise (fun a b => py2le (leV a.1) (leV b.1) = true))
    (h : RedisExporter.getAllAux "histogram" acc fs = .ok out) :
    out.Pairwise (fun a b => py2le (leV a.1) (leV b.1) = true) := by
  induction fs generalizing acc with
  | nil =>
    simp only [RedisExporter.getAllAux] at h
    cases h
    exact hacc
  | cons f fs ih =>
    simp only [RedisExporter.getAllAux] at h
    cases hg : RedisExporter.get_metric "histogram" f (some acc) with
    | error e => rw [hg] at h; cases h
    | ok m =>
      rw [hg] at h
      unfold RedisExporter.get_metric at hg
      rw [if_pos rfl] at hg
      exact ih (sortHist_ok_sorted hg) h

/-- C4.  Whenever the collector's fold over histogram fragments
succeeds, the merged sample table is emitted sorted by the decoded `le`
label value under the collector's comparison: finite bucket bounds in
ascending numeric order, and every string sentinel — in particular
`"+Inf"` — after every finite bound, for any ordering and content of
the input fragments. -/
theorem merged_histogram_le_sorted (fs : List Values) (out : Values)
    (h : RedisExporter.get_all_metrics "histogram" fs = .ok out) :
    out.Pairwise (fun a b => py2le (leV a.1) (leV b.1) = true) ∧
    out.Pairwise (fun a b => ∀ q : ℚ, leV b.1 = LabVal.num q →
      leV a.1 ≠ LabVal.str "+Inf") := by
  have hsorted : out.Pairwise (fun a b => py2le (leV a.1) (leV b.1) = true) := by
    cases fs with
    | nil =>
      simp only [RedisExporter.get_all_metrics] at h
      cases h
      exact List.Pairwise.nil
    | cons f fs =>
      simp only [RedisExporter.get_all_metrics] at h
      cases hg : RedisExporter.get_metric "histogram" f none with
      | error e => rw [hg] at h; cases h
      | ok m =>
        rw [hg] at h
        unfold RedisExporter.get_metric at hg
        rw [if_pos rfl] at hg
        exact getAllAux_hist_ok (sortHist_ok_sorted hg) h
  refine ⟨hsorted, hsorted.imp ?_⟩
  intro a b hab q hb ha
  rw [ha, hb] at hab
  simp [py2le] at hab

/-- Witness for C4 at two out-of-order concrete histogram fragments. -/
theorem merged_histogram_le_sorted_witness :
    RedisExporter.get_all_metrics "histogram"
        [[([("le", LabVal.str "_sum")], 3), ([("le", LabVal.num 2)], 1),
          ([("le", LabVal.str "+Inf")], 1)],
         [([("le", LabVal.num (1/2))], 1), ([("le", LabVal.num 2)], 4)]] =
      .ok [([("le", LabVal.num (1/2))], 1), ([("le", LabVal.num 2)], 5),
           ([("le", LabVal.str "+Inf")], 1), ([("le", LabVal.str "_sum")], 3)] ∧
    ([([("le", LabVal.num (1/2))], (1 : ℚ)), ([("le", LabVal.num 2)], 5),
      ([("le", LabVal.str "+Inf")], 1), ([("le", LabVal.str "_sum")], 3)] :
        Values).Pairwise (fun a b => py2le (leV a.1) (leV b.1) = true) ∧
    ([([("le", LabVal.num (1/2))], (1 : ℚ)), ([("le", LabVal.num 2)], 5),
      ([("le", LabVal.str "+Inf")], 1), ([("le", LabVal.str "_sum")], 3)] :
        Values).Pairwise (fun a b => ∀ q : ℚ, leV b.1 = LabVal.num q →
      leV a.1 ≠ LabVal.str "+Inf") :=
  ⟨by with_unfolding_all rfl,
    (merged_histogram_le_sorted
      [[([("le", LabVal.str "_sum")], 3), ([("le", LabVal.num 2)], 1),
        ([("le", LabVal.str "+Inf")], 1)],
       [([("le", LabVal.num (1/2))], 1), ([("le", LabVal.num 2)], 4)]]
      [([("le", LabVal.num (1/2))], 1), ([("le", LabVal.num 2)], 5),
       ([("le", LabVal.str "+Inf")], 1), ([("le", LabVal.str "_sum")], 3)]
      (by with_unfolding_all rfl)).1,
    (merged_histogram_le_sorted
      [[([("le", LabVal.str "_sum")], 3), ([("le", LabVal.num 2)], 1),
        ([("le", LabVal.str "+Inf")], 1)],
       [([("le", LabVal.num (1/2))], 1), ([("le", LabVal.num 2)], 4)]]
      [([("le", LabVal.num (1/2))], 1), ([("le", LabVal.num 2)], 5),
       ([("le", LabVal.str "+Inf")], 1), ([("le", LabVal.str "_sum")], 3)]
      (by with_unfolding_all rfl)).2⟩

/-! ## Histogram observe machinery -/

/-- Iterated unit increments, the store effect of the bucket loop. -/
def bumps (st : Store) : List Labels → Store
  | [] => st
  | k :: ks => bumps (hincr st k 1) ks

theorem bumps_count (ks : List Labels) : ∀ (st : Store) (k : Labels),
    bumps st ks k =
      if ks.count k = 0 then st k
      else some ((st k).getD 0 + (ks.count k : ℚ)) := by
  induction ks with
  | nil => intro st k; simp [bumps]
  | cons K ks ih =>
    intro st k
    have h1 : bumps st (K :: ks) = bumps (hincr st K 1) ks := rfl
    rw [h1, ih]
    by_cases hK : K = k
    · subst hK
      have hinc : hincr st K 1 K = some ((st K).getD 0 + 1) := by
        simp [hincr]
      have hcount : (K :: ks).count K = ks.count K + 1 := by
        simp [List.count_cons]
      rw [hcount, hinc]
      by_cases hc : ks.count K = 0
      · rw [if_pos hc, if_neg (Nat.succ_ne_zero _), hc]
        simp
      · rw [if_neg hc, if_neg (Nat.succ_ne_zero _)]
        simp only [Option.getD_some, Option.some.injEq]
        push_cast
        ring
    · have hk2 : ¬ k = K := fun h => hK h.symm
      have hinc : hincr st K 1 k = st k := by
        simp [hincr, hk2]
      have hcount : (K :: ks).count k = ks.count k := by
        simp [List.count_cons, hk2]
      rw [hcount, hinc]

theorem bumps_not_mem {ks : List Labels} {k : Labels} (h : k ∉ ks)
    (st : Store) : bumps st ks k = st k := by
  rw [bumps_count, if_pos (List.count_eq_zero.2 h)]

theorem count_eq_one_of_nodup_mem {l : List Labels} {a : Labels}
    (hn : l.Nodup) (h : a ∈ l) : l.count a = 1 := by
  induction l with
  | nil => simp at h
  | cons x xs ih =>
    rcases List.mem_cons.1 h with he | hm
    · subst he
      have hnotin : a ∉ xs := (List.nodup_cons.1 hn).1
      rw [List.count_cons_self, List.count_eq_zero.2 hnotin]
    · have hne : a ≠ x := by
        intro he
        exact (List.nodup_cons.1 hn).1 (he ▸ hm)
      rw [List.count_cons_of_ne hne]
      exact ih (List.nodup_cons.1 hn).2 hm

theorem bumps_count_one {ks : List Labels} {k : Labels}
    (hn : ks.Nodup) (h : k ∈ ks) (st : Store) :
    bumps st ks k = some ((st k).getD 0 + 1) := by
  have hc : ks.count k = 1 := count_eq_one_of_nodup_mem hn h
  rw [bumps_count, hc]
  simp

/-- The canonical storage key written by one histogram bucket or
sentinel increment of `observe(labels, value)`: the original label
dictionary with `le` set, merged with the base labels, in canonical
sorted form. -/
def obsKey (base l : Labels) (x : LabVal) : Labels :=
  canonList (labelsUpdate (upsert l "le" x) base)

/-- Invariant for the label dictionary as it is mutated through the
bucket loop of `observe`: keys stay duplicate-free and valid, and every
key other than `le` holds the base-label value when present there and
the caller's original value otherwise. -/
def LProp (base l0 l : Labels) : Prop :=
  (keysOf l).Nodup ∧ label_names_correct l = true ∧
    ∀ k, k ≠ "le" → alookup k l = (alookup k base).or (alookup k l0)

/-- The dictionary is either still the caller's original object state
or already carries the merged shape. -/
def GoodL (base l0 l : Labels) : Prop := l = l0 ∨ LProp base l0 l

theorem labelNameOk_le : labelNameOk "le" = true := by decide

theorem option_or_or_self (a c : Option LabVal) : a.or (a.or c) = a.or c := by
  cases a <;> rfl

theorem goodL_nodup {base l0 l : Labels} (hnl : (keysOf l0).Nodup)
    (h : GoodL base l0 l) : (keysOf l).Nodup := by
  rcases h with h | h
  · rw [h]; exact hnl
  · exact h.1

theorem goodL_lnc {base l0 l : Labels} (hcl : label_names_correct l0 = true)
    (h : GoodL base l0 l) : label_names_correct l = true := by
  rcases h with h | h
  · rw [h]; exact hcl
  · exact h.2.1

theorem goodL_next {base l0 l : Labels}
    (hnb : (keysOf base).Nodup) (hcb : label_names_correct base = true)
    (hnl : (keysOf l0).Nodup) (hcl : label_names_correct l0 = true)
    (h : GoodL base l0 l) (x : LabVal) :
    LProp base l0 (labelsUpdate (upsert l "le" x) base) := by
  have hnd : (keysOf l).Nodup := goodL_nodup hnl h
  have hlc : label_names_correct l = true := goodL_lnc hcl h
  refine ⟨nodup_keysOf_labelsUpdate base (nodup_keysOf_upsert _ _ hnd),
    label_names_correct_labelsUpdate
      (label_names_correct_upsert x hlc labelNameOk_le) hcb, ?_⟩
  intro k hk
  rw [alookup_labelsUpdate hnb, alookup_upsert,
    if_neg (fun he : "le" = k => hk he.symm)]
  rcases h with h | h
  · rw [h]
  · rw [h.2.2 k hk, option_or_or_self]

theorem goodL_canon {base l0 l : Labels}
    (hnb : (keysOf base).Nodup) (hleb : "le" ∉ keysOf base)
    (hcb : label_names_correct base = true)
    (hnl : (keysOf l0).Nodup) (hcl : label_names_correct l0 = true)
    (h : GoodL base l0 l) (x : LabVal) :
    canonList (labelsUpdate (upsert l "le" x) base) = obsKey base l0 x := by
  rcases h with h | h
  · rw [h]; rfl
  · have hbnone : alookup "le" base = none := (alookup_eq_none_iff _ _).2 hleb
    refine canonList_eq_of_alookup
      (nodup_keysOf_labelsUpdate base (nodup_keysOf_upsert _ _ h.1))
      (nodup_keysOf_labelsUpdate base (nodup_keysOf_upsert _ _ hnl)) ?_
    intro k
    rw [alookup_labelsUpdate hnb, alookup_labelsUpdate hnb,
      alookup_upsert, alookup_upsert]
    by_cases hk : "le" = k
    · rw [if_pos hk, if_pos hk]
    · rw [if_neg hk, if_neg hk, h.2.2 k (fun he => hk he.symm), option_or_or_self]

theorem inc_ok {base m : Labels} (st : Store) (amt : ℚ) (hamt : 0 ≤ amt)
    (hlnc : label_names_correct (labelsUpdate m base) = true) :
    Metric.inc base st m amt =
      .ok (hincr st (canonList (labelsUpdate m base)) amt, labelsUpdate m base) := by
  unfold Metric.inc
  rw [if_neg (not_lt.2 hamt)]
  simp only [hlnc, Bool.not_true]
  rfl

theorem observeLoop_spec {base l0 : Labels} {v : ℚ}
    (hnb : (keysOf base).Nodup) (hleb : "le" ∉ keysOf base)
    (hcb : label_names_correct base = true)
    (hnl : (keysOf l0).Nodup) (hcl : label_names_correct l0 = true) :
    ∀ (bs : List ℚ) (st : Store) (l : Labels), GoodL base l0 l →
    ∃ l2, Histogram.observeLoop base v bs st l =
        .ok (bumps st ((bs.filter (fun b => decide (v < b))).map
          (fun b => obsKey base l0 (LabVal.num b))), l2) ∧ GoodL base l0 l2 := by
  intro bs
  induction bs with
  | nil =>
    intro st l hl
    exact ⟨l, rfl, hl⟩
  | cons b bs ih =>
    intro st l hl
    have hunfold : Histogram.observeLoop base v (b :: bs) st l =
        if v < b then
          match Metric.inc base st (upsert l "le" (LabVal.num b)) 1 with
          | .error e => .error e
          | .ok (st2, l2) => Histogram.observeLoop base v bs st2 l2
        else Histogram.observeLoop base v bs st l := rfl
    by_cases hvb : v < b
    · have hlnc : label_names_correct
          (labelsUpdate (upsert l "le" (LabVal.num b)) base) = true :=
        (goodL_next hnb hcb hnl hcl hl (LabVal.num b)).2.1
      have hinc := inc_ok st 1 (by norm_num) hlnc
      have hkey := goodL_canon hnb hleb hcb hnl hcl hl (LabVal.num b)
      have hnext : GoodL base l0 (labelsUpdate (upsert l "le" (LabVal.num b)) base) :=
        Or.inr (goodL_next hnb hcb hnl hcl hl (LabVal.num b))
      rcases ih (hincr st (obsKey base l0 (LabVal.num b)) 1)
        (labelsUpdate (upsert l "le" (LabVal.num b)) base) hnext with ⟨l2, hrec, hl2⟩
      refine ⟨l2, ?_, hl2⟩
      rw [hunfold, if_pos hvb, hinc]
      have hfilter : ((b :: bs).filter (fun b => decide (v < b))) =
          b :: bs.filter (fun b => decide (v < b)) := by
        simp [List.filter_cons, hvb]
      show Histogram.observeLoop base v bs
          (hincr st (canonList (labelsUpdate (upsert l "le" (LabVal.num b)) base)) 1)
          (labelsUpdate (upsert l "le" (LabVal.num b)) base) = _
      rw [hkey, hfilter, List.map_cons]
      exact hrec
    · rcases ih st l hl with ⟨l2, hrec, hl2⟩
      refine ⟨l2, ?_, hl2⟩
      rw [hunfold, if_neg hvb]
      have hfilter : ((b :: bs).filter (fun b => decide (v < b))) =
          bs.filter (fun b => decide (v < b)) := by
        simp [List.filter_cons, hvb]
      rw [hfilter]
      exact hrec

theorem observe_eq {base l0 : Labels} {buckets : List ℚ} {st st1 st2 st3 : Store}
    {l1 l2 l3 : Labels} {v : ℚ}
    (hloop : Histogram.observeLoop base v buckets st l0 = .ok (st1, l1))
    (hinc2 : Metric.inc base st1 (upsert l1 "le" (LabVal.str "+Inf")) 1 = .ok (st2, l2))
    (hinc3 : Metric.inc base st2 (upsert l2 "le" (LabVal.str "_sum")) v = .ok (st3, l3)) :
    Histogram.observe base buckets st l0 v = .ok (st3, popKey "le" l3) := by
  unfold Histogram.observe
  rw [hloop]
  show (match Metric.inc base st1 (upsert l1 "le" (LabVal.str "+Inf")) 1 with
    | .error e => Except.error e
    | .ok (st2, l2) =>
      match Metric.inc base st2 (upsert l2 "le" (LabVal.str "_sum")) v with
      | .error e => Except.error e
      | .ok (st3, l3) => Except.ok (st3, popKey "le" l3)) =
    Except.ok (st3, popKey "le" l3)
  rw [hinc2]
  show (match Metric.inc base st2 (upsert l2 "le" (LabVal.str "_sum")) v with
    | .error e => Except.error e
    | .ok (st3, l3) => Except.ok (st3, popKey "le" l3)) =
    Except.ok (st3, popKey "le" l3)
  rw [hinc3]

theorem observe_spec (base l0 : Labels) (buckets : List ℚ) (st : Store) (v : ℚ)
    (hv : 0 ≤ v)
    (hnb : (keysOf base).Nodup) (hleb : "le" ∉ keysOf base)
    (hcb : label_names_correct base = true)
    (hnl : (keysOf l0).Nodup) (hcl : label_names_correct l0 = true) :
    ∃ l3, Histogram.observe base buckets st l0 v =
        .ok (hincr (hincr
            (bumps st ((buckets.filter (fun b => decide (v < b))).map
              (fun b => obsKey base l0 (LabVal.num b))))
            (obsKey base l0 (LabVal.str "+Inf")) 1)
          (obsKey base l0 (LabVal.str "_sum")) v, popKey "le" l3) ∧
      LProp base l0 l3 := by
  rcases observeLoop_spec (v := v) hnb hleb hcb hnl hcl buckets st l0 (Or.inl rfl)
    with ⟨l1, hloop, hl1⟩
  have hg2 := goodL_next hnb hcb hnl hcl hl1 (LabVal.str "+Inf")
  have hinc2 := inc_ok
    (bumps st ((buckets.filter (fun b => decide (v < b))).map
      (fun b => obsKey base l0 (LabVal.num b)))) 1 (by norm_num) hg2.2.1
  rw [goodL_canon hnb hleb hcb hnl hcl hl1 (LabVal.str "+Inf")] at hinc2
  have hl2 : GoodL base l0 (labelsUpdate (upsert l1 "le" (LabVal.str "+Inf")) base) :=
    Or.inr hg2
  have hg3 := goodL_next hnb hcb hnl hcl hl2 (LabVal.str "_sum")
  have hinc3 := inc_ok
    (hincr (bumps st ((buckets.filter (fun b => decide (v < b))).map
        (fun b => obsKey base l0 (LabVal.num b))))
      (obsKey base l0 (LabVal.str "+Inf")) 1) v hv hg3.2.1
  rw [goodL_canon hnb hleb hcb hnl hcl hl2 (LabVal.str "_sum")] at hinc3
  exact ⟨_, observe_eq hloop hinc2 hinc3, hg3⟩

theorem alookup_obsKey_le {base l0 : Labels} (hnb : (keysOf base).Nodup)
    (hleb : "le" ∉ keysOf base) (hnl : (keysOf l0).Nodup) (x : LabVal) :
    alookup "le" (obsKey base l0 x) = some x := by
  unfold obsKey
  rw [alookup_canonList (nodup_keysOf_labelsUpdate base
      (nodup_keysOf_upsert _ _ hnl)),
    alookup_labelsUpdate hnb, alookup_upsert, if_pos rfl,
    (alookup_eq_none_iff _ _).2 hleb]
  rfl

theorem obsKey_inj {base l0 : Labels} (hnb : (keysOf base).Nodup)
    (hleb : "le" ∉ keysOf base) (hnl : (keysOf l0).Nodup) {x y : LabVal}
    (h : obsKey base l0 x = obsKey base l0 y) : x = y := by
  have hx := alookup_obsKey_le hnb hleb hnl x
  rw [h, alookup_obsKey_le hnb hleb hnl y] at hx
  exact (Option.some.inj hx).symm

/-- C6.  A histogram `observe(labels, value)` call increments by 1
exactly the cumulative bucket counters `(labels, le=b)` for the
configured bucket boundaries `b` with `value < b` (a bucket with
`value ≥ b` is untouched), always increments the `(labels, le="+Inf")`
counter by 1, adds `value` to the `(labels, le="_sum")` running sum,
and changes no other stored field. -/
theorem histogram_observe_effect (base l : Labels) (buckets : List ℚ)
    (st : Store) (v : ℚ)
    (hv : 0 ≤ v) (hbk : buckets.Nodup)
    (hnb : (keysOf base).Nodup) (hnl : (keysOf l).Nodup)
    (hcb : label_names_correct base = true) (hcl : label_names_correct l = true)
    (hleb : "le" ∉ keysOf base) :
    ∃ st2 l2, Histogram.observe base buckets st l v = .ok (st2, l2) ∧
      (∀ b ∈ buckets, v < b →
        st2 (obsKey base l (LabVal.num b)) =
          some ((st (obsKey base l (LabVal.num b))).getD 0 + 1)) ∧
      (∀ b ∈ buckets, ¬ v < b →
        st2 (obsKey base l (LabVal.num b)) = st (obsKey base l (LabVal.num b))) ∧
      st2 (obsKey base l (LabVal.str "+Inf")) =
        some ((st (obsKey base l (LabVal.str "+Inf"))).getD 0 + 1) ∧
      st2 (obsKey base l (LabVal.str "_sum")) =
        some ((st (obsKey base l (LabVal.str "_sum"))).getD 0 + v) ∧
      (∀ k, (∀ b ∈ buckets, k ≠ obsKey base l (LabVal.num b)) →
        k ≠ obsKey base l (LabVal.str "+Inf") →
        k ≠ obsKey base l (LabVal.str "_sum") → st2 k = st k) := by
  rcases observe_spec base l buckets st v hv hnb hleb hcb hnl hcl with ⟨l3, hobs, _⟩
  have hinj : ∀ {x y : LabVal}, obsKey base l x = obsKey base l y → x = y :=
    fun h => obsKey_inj hnb hleb hnl h
  have hKSnodup : (((buckets.filter (fun b => decide (v < b))).map
      (fun b => obsKey base l (LabVal.num b)))).Nodup := by
    refine (hbk.filter _).map_on ?_
    intro x hx y hy hxy
    exact LabVal.num.inj (hinj hxy)
  have hInfNe : ∀ b : ℚ, obsKey base l (LabVal.str "+Inf") ≠ obsKey base l (LabVal.num b) := by
    intro b h
    cases hinj h
  have hSumNe : ∀ b : ℚ, obsKey base l (LabVal.str "_sum") ≠ obsKey base l (LabVal.num b) := by
    intro b h
    cases hinj h
  have hInfSumNe : obsKey base l (LabVal.str "+Inf") ≠ obsKey base l (LabVal.str "_sum") := by
    intro h
    have := LabVal.str.inj (hinj h)
    exact absurd this (by decide)
  have hInfNotKS : obsKey base l (LabVal.str "+Inf") ∉
      ((buckets.filter (fun b => decide (v < b))).map
        (fun b => obsKey base l (LabVal.num b))) := by
    intro hmem
    rcases List.mem_map.1 hmem with ⟨b, _, hb⟩
    exact hInfNe b hb.symm
  have hSumNotKS : obsKey base l (LabVal.str "_sum") ∉
      ((buckets.filter (fun b => decide (v < b))).map
        (fun b => obsKey base l (LabVal.num b))) := by
    intro hmem
    rcases List.mem_map.1 hmem with ⟨b, _, hb⟩
    exact hSumNe b hb.symm
  refine ⟨_, _, hobs, ?_, ?_, ?_, ?_, ?_⟩
  · intro b hb hvb
    have hKne1 : obsKey base l (LabVal.num b) ≠ obsKey base l (LabVal.str "_sum") := by
      intro h
      cases hinj h
    have hKne2 : obsKey base l (LabVal.num b) ≠ obsKey base l (LabVal.str "+Inf") := by
      intro h
      cases hinj h
    have hKmem : obsKey base l (LabVal.num b) ∈
        ((buckets.filter (fun b => decide (v < b))).map
          (fun b => obsKey base l (LabVal.num b))) :=
      List.mem_map_of_mem _ (List.mem_filter.2 ⟨hb, by simpa using hvb⟩)
    simp only [hincr, if_neg hKne1, if_neg hKne2]
    exact bumps_count_one hKSnodup hKmem st
  · intro b hb hvb
    have hKne1 : obsKey base l (LabVal.num b) ≠ obsKey base l (LabVal.str "_sum") := by
      intro h
      cases hinj h
    have hKne2 : obsKey base l (LabVal.num b) ≠ obsKey base l (LabVal.str "+Inf") := by
      intro h
      cases hinj h
    have hKnot : obsKey base l (LabVal.num b) ∉
        ((buckets.filter (fun b => decide (v < b))).map
          (fun b => obsKey base l (LabVal.num b))) := by
      intro hmem
      rcases List.mem_map.1 hmem with ⟨b2, hb2, hbe⟩
      have : b2 = b := LabVal.num.inj (hinj hbe)
      subst this
      exact hvb (by simpa using (List.mem_filter.1 hb2).2)
    simp only [hincr, if_neg hKne1, if_neg hKne2]
    exact bumps_not_mem hKnot st
  · simp [hincr, hInfSumNe, bumps_not_mem hInfNotKS st]
  · have hSumInfNe : obsKey base l (LabVal.str "_sum") ≠
        obsKey base l (LabVal.str "+Inf") := fun h => hInfSumNe h.symm
    simp [hincr, hSumInfNe, bumps_not_mem hSumNotKS st]
  · intro k hkb hkinf hksum
    have hknot : k ∉ ((buckets.filter (fun b => decide (v < b))).map
        (fun b => obsKey base l (LabVal.num b))) := by
      intro hmem
      rcases List.mem_map.1 hmem with ⟨b, hb, hbe⟩
      exact hkb b (List.mem_filter.1 hb).1 hbe.symm
    simp only [hincr, if_neg hksum, if_neg hkinf]
    exact bumps_not_mem hknot st

/-- Witness for C6: observing 3/10 against buckets [1/10, 1/2] with a
base label and an empty store. -/
theorem histogram_observe_effect_witness :
    ((0 : ℚ) ≤ 3/10 ∧ ([1/10, 1/2] : List ℚ).Nodup ∧
     "le" ∉ keysOf [("host", LabVal.str "h")]) ∧
    (∃ st2 l2, Histogram.observe [("host", LabVal.str "h")] [1/10, 1/2]
        (fun _ => none) [("endpoint", LabVal.str "/")] (3/10) = .ok (st2, l2) ∧
      (∀ b ∈ ([1/10, 1/2] : List ℚ), (3/10 : ℚ) < b →
        st2 (obsKey [("host", LabVal.str "h")] [("endpoint", LabVal.str "/")]
            (LabVal.num b)) =
          some (((fun _ => none : Store) (obsKey [("host", LabVal.str "h")]
            [("endpoint", LabVal.str "/")] (LabVal.num b))).getD 0 + 1)) ∧
      (∀ b ∈ ([1/10, 1/2] : List ℚ), ¬ (3/10 : ℚ) < b →
        st2 (obsKey [("host", LabVal.str "h")] [("endpoint", LabVal.str "/")]
            (LabVal.num b)) =
          (fun _ => none : Store) (obsKey [("host", LabVal.str "h")]
            [("endpoint", LabVal.str "/")] (LabVal.num b))) ∧
      st2 (obsKey [("host", LabVal.str "h")] [("endpoint", LabVal.str "/")]
          (LabVal.str "+Inf")) =
        some (((fun _ => none : Store) (obsKey [("host", LabVal.str "h")]
          [("endpoint", LabVal.str "/")] (LabVal.str "+Inf"))).getD 0 + 1) ∧
      st2 (obsKey [("host", LabVal.str "h")] [("endpoint", LabVal.str "/")]
          (LabVal.str "_sum")) =
        some (((fun _ => none : Store) (obsKey [("host", LabVal.str "h")]
          [("endpoint", LabVal.str "/")] (LabVal.str "_sum"))).getD 0 + 3/10) ∧
      (∀ k, (∀ b ∈ ([1/10, 1/2] : List ℚ),
          k ≠ obsKey [("host", LabVal.str "h")] [("endpoint", LabVal.str "/")]
            (LabVal.num b)) →
        k ≠ obsKey [("host", LabVal.str "h")] [("endpoint", LabVal.str "/")]
          (LabVal.str "+Inf") →
        k ≠ obsKey [("host", LabVal.str "h")] [("endpoint", LabVal.str "/")]
          (LabVal.str "_sum") → st2 k = (fun _ => none : Store) k)) :=
  ⟨⟨by with_unfolding_all decide, by with_unfolding_all decide, by decide⟩,
    histogram_observe_effect [("host", LabVal.str "h")]
      [("endpoint", LabVal.str "/")] [1/10, 1/2] (fun _ => none) (3/10)
      (by with_unfolding_all decide) (by with_unfolding_all decide)
      (by decide) (by decide) (by decide) (by decide) (by decide)⟩

/-- C2 code-bug evidence.  Observing the value 1/10 — exactly the first
default bucket boundary — against the default buckets leaves the
`le=0.1` cumulative counter absent (count 0), although the observation
was recorded (the `+Inf` counter reads 1): the code increments a bucket
only when `value < bucket` (strict), while the claim (and the
function's own docstring, "less than or equal to that bucket
threshold") requires an observation equal to a boundary to be counted
in that boundary's bucket, i.e. a count of 1. -/
theorem histogram_boundary_observation_not_counted :
    (Histogram.observe [] defaultBuckets (fun _ => none) [] (1/10)).toOption.map
        (fun p => (p.1 [("le", LabVal.num (1/10))],
          p.1 [("le", LabVal.str "+Inf")])) =
      some (none, some 1) := by
  with_unfolding_all rfl

theorem dec_ok {base m : Labels} (st : Store) (amt : ℚ) (hamt : 0 ≤ amt)
    (hlnc : label_names_correct (labelsUpdate m base) = true) :
    Metric.dec base st m amt =
      .ok (hincr st (canonList (labelsUpdate m base)) (-amt), labelsUpdate m base) := by
  unfold Metric.dec
  rw [if_neg (not_lt.2 hamt)]
  simp only [hlnc, Bool.not_true]
  rfl

/-- C10.  Every recorder operation taking a label dictionary mutates
the caller-supplied dictionary in place: after `set_value`, `inc`,
`dec` and `get_value` the argument holds every base-label entry (the
base value winning on a shared key) on top of the caller's own entries,
and after `observe` it additionally holds no `le` entry (any
caller-supplied `le` is removed); the argument is not left untouched. -/
theorem recorder_ops_mutate_caller_labels (base l : Labels) (st : Store)
    (v amt q : ℚ) (buckets : List ℚ)
    (hnb : (keysOf base).Nodup) (hnl : (keysOf l).Nodup)
    (hcb : label_names_correct base = true) (hcl : label_names_correct l = true)
    (hamt : 0 ≤ amt) (hv : 0 ≤ v) (hleb : "le" ∉ keysOf base)
    (hget : st (canonList (labelsUpdate l base)) = some q) :
    (∃ st2 l2, Metric.set_value base st l v = .ok (st2, l2) ∧
      ∀ k, alookup k l2 = (alookup k base).or (alookup k l)) ∧
    (∃ st2 l2, Metric.inc base st l amt = .ok (st2, l2) ∧
      ∀ k, alookup k l2 = (alookup k base).or (alookup k l)) ∧
    (∃ st2 l2, Metric.dec base st l amt = .ok (st2, l2) ∧
      ∀ k, alookup k l2 = (alookup k base).or (alookup k l)) ∧
    (∃ r l2, Metric.get_value base st l = .ok (r, l2) ∧
      ∀ k, alookup k l2 = (alookup k base).or (alookup k l)) ∧
    (∃ st2 l2, Histogram.observe base buckets st l v = .ok (st2, l2) ∧
      ∀ k, alookup k l2 =
        if k = "le" then none else (alookup k base).or (alookup k l)) := by
  have hlnc2 : label_names_correct (labelsUpdate l base) = true :=
    label_names_correct_labelsUpdate hcl hcb
  have hlook2 : ∀ k, alookup k (labelsUpdate l base) =
      (alookup k base).or (alookup k l) := alookup_labelsUpdate hnb l
  refine ⟨?_, ?_, ?_, ?_, ?_⟩
  · have hsv : Metric.set_value base st l v =
        .ok (hset st (canonList (labelsUpdate l base)) v, labelsUpdate l base) := by
      unfold Metric.set_value
      have hc1 : (!l.isEmpty && !label_names_correct l) = false := by
        rw [hcl]
        simp
      rw [hc1]
      simp only [hlnc2, Bool.not_true]
      rfl
    exact ⟨_, _, hsv, hlook2⟩
  · exact ⟨_, _, inc_ok st amt hamt hlnc2, hlook2⟩
  · exact ⟨_, _, dec_ok st amt hamt hlnc2, hlook2⟩
  · have hn2 : (keysOf (labelsUpdate l base)).Nodup :=
      nodup_keysOf_labelsUpdate base hnl
    have hn3 : (keysOf (labelsUpdate (labelsUpdate l base) base)).Nodup :=
      nodup_keysOf_labelsUpdate base hn2
    have hlnc3 : label_names_correct (labelsUpdate (labelsUpdate l base) base) = true :=
      label_names_correct_labelsUpdate hlnc2 hcb
    have hlook3 : ∀ k, alookup k (labelsUpdate (labelsUpdate l base) base) =
        (alookup k base).or (alookup k l) := by
      intro k
      rw [alookup_labelsUpdate hnb, hlook2 k, option_or_or_self]
    have hcanon : canonList (labelsUpdate (labelsUpdate l base) base) =
        canonList (labelsUpdate l base) :=
      canonList_eq_of_alookup hn3 hn2 (fun k => by rw [hlook3 k, hlook2 k])
    have hgv : Metric.get_value base st l =
        .ok (q, labelsUpdate (labelsUpdate l base) base) := by
      unfold Metric.get_value
      simp only [hlnc2, hlnc3, Bool.not_true, hget, hcanon, Option.isNone_some]
      rfl
    exact ⟨q, _, hgv, hlook3⟩
  · rcases observe_spec base l buckets st v hv hnb hleb hcb hnl hcl
      with ⟨l3, hobs, hl3⟩
    refine ⟨_, _, hobs, ?_⟩
    intro k
    by_cases hk : k = "le"
    · rw [if_pos hk, hk]
      exact alookup_popKey_self "le" hl3.1
    · rw [if_neg hk, alookup_popKey_ne hk, hl3.2.2 k hk]

/-- Witness for C10 at concrete labels, base labels and a store holding
one sample. -/
theorem recorder_ops_mutate_caller_labels_witness :
    ((0 : ℚ) ≤ 5 ∧ (0 : ℚ) ≤ 2 ∧
     hset (fun _ => none) (canonList (labelsUpdate [("a", LabVal.str "b")]
         [("host", LabVal.str "h")])) 7
       (canonList (labelsUpdate [("a", LabVal.str "b")]
         [("host", LabVal.str "h")])) = some 7) ∧
    ((∃ st2 l2, Metric.set_value [("host", LabVal.str "h")]
        (hset (fun _ => none) (canonList (labelsUpdate [("a", LabVal.str "b")]
          [("host", LabVal.str "h")])) 7) [("a", LabVal.str "b")] 2 = .ok (st2, l2) ∧
      ∀ k, alookup k l2 = (alookup k [("host", LabVal.str "h")]).or
        (alookup k [("a", LabVal.str "b")])) ∧
    (∃ st2 l2, Metric.inc [("host", LabVal.str "h")]
        (hset (fun _ => none) (canonList (labelsUpdate [("a", LabVal.str "b")]
          [("host", LabVal.str "h")])) 7) [("a", LabVal.str "b")] 5 = .ok (st2, l2) ∧
      ∀ k, alookup k l2 = (alookup k [("host", LabVal.str "h")]).or
        (alookup k [("a", LabVal.str "b")])) ∧
    (∃ st2 l2, Metric.dec [("host", LabVal.str "h")]
        (hset (fun _ => none) (canonList (labelsUpdate [("a", LabVal.str "b")]
          [("host", LabVal.str "h")])) 7) [("a", LabVal.str "b")] 5 = .ok (st2, l2) ∧
      ∀ k, alookup k l2 = (alookup k [("host", LabVal.str "h")]).or
        (alookup k [("a", LabVal.str "b")])) ∧
    (∃ r l2, Metric.get_value [("host", LabVal.str "h")]
        (hset (fun _ => none) (canonList (labelsUpdate [("a", LabVal.str "b")]
          [("host", LabVal.str "h")])) 7) [("a", LabVal.str "b")] = .ok (r, l2) ∧
      ∀ k, alookup k l2 = (alookup k [("host", LabVal.str "h")]).or
        (alookup k [("a", LabVal.str "b")])) ∧
    (∃ st2 l2, Histogram.observe [("host", LabVal.str "h")] [1, 2]
        (hset (fun _ => none) (canonList (labelsUpdate [("a", LabVal.str "b")]
          [("host", LabVal.str "h")])) 7) [("a", LabVal.str "b")] 2 = .ok (st2, l2) ∧
      ∀ k, alookup k l2 =
        if k = "le" then none
        else (alookup k [("host", LabVal.str "h")]).or
          (alookup k [("a", LabVal.str "b")]))) :=
  ⟨⟨by decide, by decide, by decide⟩,
    recorder_ops_mutate_caller_labels [("host", LabVal.str "h")]
      [("a", LabVal.str "b")]
      (hset (fun _ => none) (canonList (labelsUpdate [("a", LabVal.str "b")]
        [("host", LabVal.str "h")])) 7) 2 5 7 [1, 2]
      (by decide) (by decide) (by decide) (by decide)
      (by decide) (by decide) (by decide) (by decide)⟩

end PyProm
